import Mathlib

/-!
Verification of the tic-tac-toe decision engine of `src/components/TicTacToe.tsx`
(repository `dpott197/tictactoe-expo`).

The game logic of the component — `checkWinner`, `checkDraw`, `minimax`
(alpha-beta), `getBestMove` and the data they operate on — is embedded
shallowly below.  JavaScript values are rendered as follows:

* a cell holds `'X'`, `'O'` or `null` — `Cell := Option Mark` with `none` for
  `null`;
* a board is the array of 9 cells — `Board := List Cell`; JS array indexing
  `board[i]` (which yields `undefined` out of range) is `b.get? i :
  Option Cell`, so `board[i] === null` is `b.get? i = some none`;
* the JS numbers used as scores are integers in `[-10, 10]` plus the two
  IEEE infinities used only as sentinels; `-Infinity` / `Infinity` are
  modelled by the integer sentinels `negInf` / `posInf`, which lie strictly
  outside every reachable score, so every comparison made by the code has
  the same outcome as with the IEEE infinities;
* `Math.random()` results (values in `[0,1)`) are passed in explicitly as
  rational parameters `r1` (the difficulty gate draw) and `r2` (the uniform
  pick draw);
* the in-place mutation `board[i] = 'O'; … ; board[i] = null` of `minimax`
  and `getBestMove` is rendered functionally: the recursive call receives
  `b.set i (some Mark.O)` and the continuation keeps using `b`, which is
  exactly what mutate-then-restore computes (the mutation discipline itself
  is modelled and verified separately via `minimaxS` / `getBestMoveS`).
-/

/-- A mark on the board: `'X'` or `'O'`. -/
inductive Mark where
  | X
  | O
deriving DecidableEq, Repr

/-- One cell of the board: `null` (`none`) or a mark. -/
abbrev Cell := Option Mark

/-- Source `type Board = Player[]` — the game board, a list of cells
(length 9 for every board actually built by the component). -/
abbrev Board := List Cell

/-- Source `type Difficulty = 'easy' | 'medium' | 'hard'`. -/
inductive Difficulty where
  | easy
  | medium
  | hard
deriving DecidableEq, Repr

/-- The 8 `WINNING_COMBINATIONS` index triples, in source order. -/
def WINNING_COMBINATIONS : List (Nat × Nat × Nat) :=
  [(0, 1, 2), (3, 4, 5), (6, 7, 8),
   (0, 3, 6), (1, 4, 7), (2, 5, 8),
   (0, 4, 8), (2, 4, 6)]

/-- The loop of `checkWinner`: scan the combinations in order and return the
mark of the first line whose three cells hold the same non-null mark
(`board[a] && board[a] === board[b] && board[a] === board[c]`). -/
def checkWinnerAux (b : Board) : List (Nat × Nat × Nat) → Option Mark
  | [] => none
  | (i, j, k) :: rest =>
    match b.get? i with
    | some (some m) =>
      if b.get? j = some (some m) ∧ b.get? k = some (some m) then some m
      else checkWinnerAux b rest
    | _ => checkWinnerAux b rest

/-- Source `checkWinner` (lines 26–34). -/
def checkWinner (b : Board) : Option Mark :=
  checkWinnerAux b WINNING_COMBINATIONS

/-- Source `checkDraw` (lines 36–38):
`board.every(cell => cell !== null) && !checkWinner(board)`. -/
def checkDraw (b : Board) : Bool :=
  b.all (fun cell => cell.isSome) && (checkWinner b).isNone

/-- The derived outcome of a board (the spec's Outcome Evaluator). -/
inductive Outcome where
  | inProgress
  | win (m : Mark)
  | draw
deriving DecidableEq, Repr

/-- Operation `evaluate(board) -> Outcome`: the composition of `checkWinner` and
`checkDraw` the component applies after every move (source lines 119–127,
151–161): a completed line wins, otherwise a full board is a draw,
otherwise the game is in progress. -/
def evaluate (b : Board) : Outcome :=
  match checkWinner b with
  | some m => Outcome.win m
  | none => if checkDraw b then Outcome.draw else Outcome.inProgress

/-- Sentinel for the IEEE `-Infinity` used by `minimax` / `getBestMove`:
strictly below every reachable score. -/
def negInf : Int := -1000000

/-- Sentinel for `Infinity`: strictly above every reachable score. -/
def posInf : Int := 1000000

/-- Number of `null` cells of a board. -/
def countEmpty (b : Board) : Nat :=
  b.countP fun c => c.isNone

theorem countEmpty_set_lt {b : Board} {i : Nat} (h : b.get? i = some none)
    (m : Mark) : countEmpty (b.set i (some m)) < countEmpty b := by
  induction b generalizing i with
  | nil => simp [List.get?] at h
  | cons c t ih =>
    cases i with
    | zero =>
      simp only [List.get?] at h
      cases h
      simp [countEmpty, List.set, List.countP_cons]
    | succ j =>
      simp only [List.get?] at h
      have := ih h
      simp only [countEmpty, List.set, List.countP_cons] at *
      omega

mutual

/-- Source `minimax` (lines 41–75): alpha-beta scorer.  `depth` is the ply
count from the search root; the maximizing player is `'O'`. -/
def minimax (b : Board) (depth : Nat) (isMaximizing : Bool)
    (alpha beta : Int) : Int :=
  match checkWinner b with
  | some Mark.O => 10 - (depth : Int)
  | some Mark.X => (depth : Int) - 10
  | none =>
    if checkDraw b then 0
    else if isMaximizing then
      maxLoop b depth (List.range 9) negInf alpha beta
    else
      minLoop b depth (List.range 9) posInf alpha beta
termination_by (countEmpty b, 11)
decreasing_by
  all_goals apply Prod.Lex.right
  all_goals simp [List.length_range]

/-- The maximizing `for (let i = 0; i < 9; i++)` loop of `minimax`:
state is `bestScore` and `alpha`; `break` when `beta <= alpha`. -/
def maxLoop (b : Board) (depth : Nat) (l : List Nat)
    (bestScore alpha beta : Int) : Int :=
  match l with
  | [] => bestScore
  | i :: rest =>
    if h : b.get? i = some none then
      let score := minimax (b.set i (some Mark.O)) (depth + 1) false alpha beta
      let bestScore' := max score bestScore
      let alpha' := max alpha score
      if beta ≤ alpha' then bestScore'
      else maxLoop b depth rest bestScore' alpha' beta
    else maxLoop b depth rest bestScore alpha beta
termination_by (countEmpty b, l.length + 1)
decreasing_by
  all_goals first
    | exact Prod.Lex.left _ _ (countEmpty_set_lt h _)
    | (apply Prod.Lex.right; simp only [List.length_cons]; omega)

/-- The minimizing loop of `minimax`: state is `bestScore` and `beta`. -/
def minLoop (b : Board) (depth : Nat) (l : List Nat)
    (bestScore alpha beta : Int) : Int :=
  match l with
  | [] => bestScore
  | i :: rest =>
    if h : b.get? i = some none then
      let score := minimax (b.set i (some Mark.X)) (depth + 1) true alpha beta
      let bestScore' := min score bestScore
      let beta' := min beta score
      if beta' ≤ alpha then bestScore'
      else minLoop b depth rest bestScore' alpha beta'
    else minLoop b depth rest bestScore alpha beta
termination_by (countEmpty b, l.length + 1)
decreasing_by
  all_goals first
    | exact Prod.Lex.left _ _ (countEmpty_set_lt h _)
    | (apply Prod.Lex.right; simp only [List.length_cons]; omega)

end

/-- Source `availableMoves` of `getBestMove` (line 82):
`board.map((cell, index) => cell === null ? index : null)
      .filter(val => val !== null) as number[]`
(the filter of non-null values plus the cast is `filterMap id`). -/
def availableMoves (b : Board) : List Nat :=
  (b.mapIdx fun index cell => if cell = none then some index else none).filterMap id

/-- The top-level best-move loop of `getBestMove` (source lines 92–105):
`bestMove` starts at `-1`, `bestScore` at `-Infinity`; each empty cell is
scored by `minimax(board, 0, false)` with the default full window and the
strictly best score wins. -/
def bestMoveLoop (b : Board) : List Nat → Int → Int → Int
  | [], bestMove, _ => bestMove
  | i :: rest, bestMove, bestScore =>
    if b.get? i = some none then
      let score := minimax (b.set i (some Mark.O)) 0 false negInf posInf
      if score > bestScore then bestMoveLoop b rest (Int.ofNat i) score
      else bestMoveLoop b rest bestMove bestScore
    else bestMoveLoop b rest bestMove bestScore

/-- Source `getBestMove` (lines 77–108), the spec's `selectMove`.  `r1` is
the `Math.random()` draw of the difficulty gate, `r2` the draw of the
uniform pick (both in `[0,1)`).  The random path indexes `availableMoves`
at `Math.floor(r2 * length)`; out-of-range JS indexing yields `undefined`,
rendered as `none`. -/
def getBestMove (b : Board) (difficulty : Difficulty) (r1 r2 : ℚ) : Option Int :=
  let avail := availableMoves b
  if difficulty = Difficulty.easy ∧ r1 < 7/10 then
    (avail.get? (Nat.floor (r2 * avail.length))).map fun n => (n : Int)
  else if difficulty = Difficulty.medium ∧ r1 < 3/10 then
    (avail.get? (Nat.floor (r2 * avail.length))).map fun n => (n : Int)
  else
    some (bestMoveLoop b (List.range 9) (-1) negInf)

/-- The Hard search path of `getBestMove` in isolation (lines 92–107). -/
def hardMove (b : Board) : Int :=
  bestMoveLoop b (List.range 9) (-1) negInf

/-- The empty board the component starts from:
`useState<Board>(Array(9).fill(null))`. -/
def emptyBoard : Board := List.replicate 9 none

mutual

/-- Comparison object for the pruning claim, following the spec's words
(§GLOSSARY "Minimax", §4.2): exhaustive minimax **without** alpha-beta
pruning — identical terminal scoring and move order, but every empty cell
is always searched and no bounds are kept. -/
def npMinimax (b : Board) (depth : Nat) (isMaximizing : Bool) : Int :=
  match checkWinner b with
  | some Mark.O => 10 - (depth : Int)
  | some Mark.X => (depth : Int) - 10
  | none =>
    if checkDraw b then 0
    else if isMaximizing then
      npMaxLoop b depth (List.range 9) negInf
    else
      npMinLoop b depth (List.range 9) posInf
termination_by (countEmpty b, 11)
decreasing_by
  all_goals apply Prod.Lex.right
  all_goals simp [List.length_range]

/-- Maximizing loop of the unpruned search. -/
def npMaxLoop (b : Board) (depth : Nat) (l : List Nat) (bestScore : Int) : Int :=
  match l with
  | [] => bestScore
  | i :: rest =>
    if h : b.get? i = some none then
      let score := npMinimax (b.set i (some Mark.O)) (depth + 1) false
      npMaxLoop b depth rest (max score bestScore)
    else npMaxLoop b depth rest bestScore
termination_by (countEmpty b, l.length + 1)
decreasing_by
  all_goals first
    | exact Prod.Lex.left _ _ (countEmpty_set_lt h _)
    | (apply Prod.Lex.right; simp only [List.length_cons]; omega)

/-- Minimizing loop of the unpruned search. -/
def npMinLoop (b : Board) (depth : Nat) (l : List Nat) (bestScore : Int) : Int :=
  match l with
  | [] => bestScore
  | i :: rest =>
    if h : b.get? i = some none then
      let score := npMinimax (b.set i (some Mark.X)) (depth + 1) true
      npMinLoop b depth rest (min score bestScore)
    else npMinLoop b depth rest bestScore
termination_by (countEmpty b, l.length + 1)
decreasing_by
  all_goals first
    | exact Prod.Lex.left _ _ (countEmpty_set_lt h _)
    | (apply Prod.Lex.right; simp only [List.length_cons]; omega)

end

/-- Top-level best-move loop driven by the unpruned scorer (comparison
object for the pruning claim). -/
def npBestMoveLoop (b : Board) : List Nat → Int → Int → Int
  | [], bestMove, _ => bestMove
  | i :: rest, bestMove, bestScore =>
    if b.get? i = some none then
      let score := npMinimax (b.set i (some Mark.O)) 0 false
      if score > bestScore then npBestMoveLoop b rest (Int.ofNat i) score
      else npBestMoveLoop b rest bestMove bestScore
    else npBestMoveLoop b rest bestMove bestScore

/-- The move the unpruned search would choose. -/
def npHardMove (b : Board) : Int :=
  npBestMoveLoop b (List.range 9) (-1) negInf

/-- Fuel-indexed maximizing loop (structural-recursion twin of `maxLoop`,
with the recursive scorer abstracted; used so that concrete runs of the
search reduce inside the kernel). -/
def maxLoopF (scoreOf : Board → Int → Int → Int) (b : Board) :
    List Nat → Int → Int → Int → Int
  | [], bestScore, _, _ => bestScore
  | i :: rest, bestScore, alpha, beta =>
    if b.get? i = some none then
      let score := scoreOf (b.set i (some Mark.O)) alpha beta
      let bestScore' := max score bestScore
      let alpha' := max alpha score
      if beta ≤ alpha' then bestScore'
      else maxLoopF scoreOf b rest bestScore' alpha' beta
    else maxLoopF scoreOf b rest bestScore alpha beta

/-- Fuel-indexed minimizing loop (twin of `minLoop`). -/
def minLoopF (scoreOf : Board → Int → Int → Int) (b : Board) :
    List Nat → Int → Int → Int → Int
  | [], bestScore, _, _ => bestScore
  | i :: rest, bestScore, alpha, beta =>
    if b.get? i = some none then
      let score := scoreOf (b.set i (some Mark.X)) alpha beta
      let bestScore' := min score bestScore
      let beta' := min beta score
      if beta' ≤ alpha then bestScore'
      else minLoopF scoreOf b rest bestScore' alpha beta'
    else minLoopF scoreOf b rest bestScore alpha beta

/-- Structural-recursion twin of `minimax`, indexed by a fuel that bounds
the recursion depth (one unit per ply; `countEmpty b` units suffice).
`minimaxF_eq` shows it agrees with `minimax` whenever the fuel suffices. -/
def minimaxF : Nat → Board → Nat → Bool → Int → Int → Int
  | 0, _, _, _, _, _ => 0
  | fuel + 1, b, depth, isMaximizing, alpha, beta =>
    match checkWinner b with
    | some Mark.O => 10 - (depth : Int)
    | some Mark.X => (depth : Int) - 10
    | none =>
      if checkDraw b then 0
      else if isMaximizing then
        maxLoopF (fun b' => minimaxF fuel b' (depth + 1) false) b
          (List.range 9) negInf alpha beta
      else
        minLoopF (fun b' => minimaxF fuel b' (depth + 1) true) b
          (List.range 9) posInf alpha beta

/-- Twin of `bestMoveLoop` with the scorer abstracted. -/
def bestMoveLoopF (scoreOf : Board → Int) (b : Board) : List Nat → Int → Int → Int
  | [], bestMove, _ => bestMove
  | i :: rest, bestMove, bestScore =>
    if b.get? i = some none then
      let score := scoreOf (b.set i (some Mark.O))
      if score > bestScore then bestMoveLoopF scoreOf b rest (Int.ofNat i) score
      else bestMoveLoopF scoreOf b rest bestMove bestScore
    else bestMoveLoopF scoreOf b rest bestMove bestScore

/-- Fuel-indexed twin of `hardMove`. -/
def hardMoveF (fuel : Nat) (b : Board) : Int :=
  bestMoveLoopF (fun b' => minimaxF fuel b' 0 false negInf posInf) b
    (List.range 9) (-1) negInf

/-- Move order used by the certificate search `safeN` (a search-order
choice of the verification, not of the source; centre first). -/
def orderedIdx : List Nat := [4, 0, 2, 6, 8, 1, 3, 5, 7]

/-- The 8 `WINNING_COMBINATIONS` as 9-bit masks, in source order
(`(a, b, c) ↦ 2 ^ a + 2 ^ b + 2 ^ c`). -/
def lineMasks : List Nat := [7, 56, 448, 73, 146, 292, 273, 84]

/-- Bitboard rendering of `checkWinner`'s first-match scan: `x` and `o` are
the 9-bit masks of the cells holding `'X'` resp. `'O'`. -/
def firstLineWinB (x o : Nat) : List Nat → Option Mark
  | [] => none
  | mk :: rest =>
    if x &&& mk = mk then some Mark.X
    else if o &&& mk = mk then some Mark.O
    else firstLineWinB x o rest

/-- All-quantifier loop of the certificate search: every legal `'X'` reply
must keep the position safe. -/
def forAB (check : Nat → Nat → Bool) (x o : Nat) : List Nat → Bool
  | [] => true
  | i :: rest =>
    (if (x ||| o).testBit i then true else check (x ||| 2 ^ i) o)
      && forAB check x o rest

/-- Existential loop of the certificate search: some legal `'O'` move keeps
the position safe. -/
def anyBB (check : Nat → Nat → Bool) (x o : Nat) : List Nat → Bool
  | [] => false
  | i :: rest =>
    (if (x ||| o).testBit i then false else check x (o ||| 2 ^ i))
      || anyBB check x o rest

/-- Certificate search: `safeN fuel turn x o` decides whether the side
`'O'` can avoid ever losing from the bitboard position `(x, o)` —
`turn = true` means `'X'` is to move.  It is a decision procedure of this
verification (not source code); `safeN_nonneg` ties it to the sign of the
exhaustive minimax value. -/
def safeN : Nat → Bool → Nat → Nat → Bool
  | 0, _, _, _ => false
  | fuel + 1, turn, x, o =>
    match firstLineWinB x o lineMasks with
    | some Mark.X => false
    | some Mark.O => true
    | none =>
      if x ||| o = 511 then true
      else if turn then forAB (safeN fuel false) x o orderedIdx
      else anyBB (safeN fuel true) x o orderedIdx

/-- The board denoted by a pair of bitboards. -/
def boardOf (x o : Nat) : Board :=
  (List.range 9).map fun i =>
    if x.testBit i then some Mark.X
    else if o.testBit i then some Mark.O
    else none

/-- Stateful maximizing loop: the board is threaded through the loop
exactly as the source mutates it (`board[i] = 'O'`, recurse,
`board[i] = null`, possibly `break`). -/
def maxLoopS (recS : Board → Int → Int → Int × Board) :
    Board → List Nat → Int → Int → Int → Int × Board
  | b, [], bestScore, _, _ => (bestScore, b)
  | b, i :: rest, bestScore, alpha, beta =>
    if b.get? i = some none then
      let b1 := b.set i (some Mark.O)
      let sb := recS b1 alpha beta
      let b3 := sb.2.set i none
      let bestScore' := max sb.1 bestScore
      let alpha' := max alpha sb.1
      if beta ≤ alpha' then (bestScore', b3)
      else maxLoopS recS b3 rest bestScore' alpha' beta
    else maxLoopS recS b rest bestScore alpha beta

/-- Stateful minimizing loop (mutation threaded, as in the source). -/
def minLoopS (recS : Board → Int → Int → Int × Board) :
    Board → List Nat → Int → Int → Int → Int × Board
  | b, [], bestScore, _, _ => (bestScore, b)
  | b, i :: rest, bestScore, alpha, beta =>
    if b.get? i = some none then
      let b1 := b.set i (some Mark.X)
      let sb := recS b1 alpha beta
      let b3 := sb.2.set i none
      let bestScore' := min sb.1 bestScore
      let beta' := min beta sb.1
      if beta' ≤ alpha then (bestScore', b3)
      else minLoopS recS b3 rest bestScore' alpha beta'
    else minLoopS recS b rest bestScore alpha beta

/-- Stateful rendering of `minimax`: returns the score **and** the board
object as it stands when the call returns, modelling the source's in-place
`board[i] = 'O' / board[i] = null` mutation discipline (fuel-indexed; one
unit per ply, `countEmpty b` units suffice). -/
def minimaxS : Nat → Board → Nat → Bool → Int → Int → Int × Board
  | 0, b, _, _, _, _ => (0, b)
  | fuel + 1, b, depth, isMaximizing, alpha, beta =>
    match checkWinner b with
    | some Mark.O => (10 - (depth : Int), b)
    | some Mark.X => ((depth : Int) - 10, b)
    | none =>
      if checkDraw b then (0, b)
      else if isMaximizing then
        maxLoopS (fun b' => minimaxS fuel b' (depth + 1) false) b
          (List.range 9) negInf alpha beta
      else
        minLoopS (fun b' => minimaxS fuel b' (depth + 1) true) b
          (List.range 9) posInf alpha beta

/-- Stateful top-level best-move loop (mutation threaded). -/
def bestMoveLoopS (scoreOf : Board → Int × Board) :
    Board → List Nat → Int → Int → Int × Board
  | b, [], bestMove, _ => (bestMove, b)
  | b, i :: rest, bestMove, bestScore =>
    if b.get? i = some none then
      let b1 := b.set i (some Mark.O)
      let sb := scoreOf b1
      let b3 := sb.2.set i none
      if sb.1 > bestScore then bestMoveLoopS scoreOf b3 rest (Int.ofNat i) sb.1
      else bestMoveLoopS scoreOf b3 rest bestMove bestScore
    else bestMoveLoopS scoreOf b rest bestMove bestScore

/-- Stateful rendering of `getBestMove`: same result, plus the board object
as it stands on return. -/
def getBestMoveS (b : Board) (difficulty : Difficulty) (r1 r2 : ℚ) :
    Option Int × Board :=
  let avail := availableMoves b
  if difficulty = Difficulty.easy ∧ r1 < 7/10 then
    ((avail.get? (Nat.floor (r2 * avail.length))).map fun n => (n : Int), b)
  else if difficulty = Difficulty.medium ∧ r1 < 3/10 then
    ((avail.get? (Nat.floor (r2 * avail.length))).map fun n => (n : Int), b)
  else
    let res := bestMoveLoopS (fun b1 => minimaxS 9 b1 0 false negInf posInf) b
      (List.range 9) (-1) negInf
    (some res.1, res.2)

/-- The two-player protocol of the losslessness claim: starting from the
empty board, `'X'` (MarkA) plays any legal move while `'O'` (MarkB) plays
the move returned by Hard `getBestMove`; the Boolean is `true` when `'X'`
is to move.  Only positions with `InProgress` outcome are stepped. -/
inductive ReachAB : Board → Bool → Prop where
  | base : ReachAB emptyBoard true
  | stepA (b : Board) (i : Nat) : ReachAB b true →
      evaluate b = Outcome.inProgress → b.get? i = some none →
      ReachAB (b.set i (some Mark.X)) false
  | stepB (b : Board) (mv : Int) : ReachAB b false →
      evaluate b = Outcome.inProgress →
      getBestMove b Difficulty.hard 0 0 = some mv →
      ReachAB (b.set mv.toNat (some Mark.O)) true

/-- The board of the spec's §8 example:
`[A, A, Empty, B, B, Empty, Empty, Empty, Empty]`. -/
def boardC5 : Board :=
  [some Mark.X, some Mark.X, none, some Mark.O, some Mark.O,
   none, none, none, none]

/-- A no-winner board with exactly one Empty cell, at index 8. -/
def boardOneEmpty : Board :=
  [some Mark.X, some Mark.O, some Mark.X, some Mark.O, some Mark.X,
   some Mark.O, some Mark.O, some Mark.X, none]

/-- Modelled from the spec's words (§3, §4.1): the mark completing a given
WinLine — all three indexed cells hold the same non-Empty mark. -/
def lineWinner (b : Board) : Nat × Nat × Nat → Option Mark
  | (x, y, z) =>
    match b.getD x none with
    | some m =>
      if b.getD y none = some m ∧ b.getD z none = some m then some m
      else none
    | none => none

/-- Spec-side Outcome Evaluator (the wording of the evaluation claim):
`Win m` for the first WinLine, in the fixed §3 order, completed by `m`;
`Draw` when no WinLine is completed and every cell is non-Empty;
`InProgress` otherwise. -/
def evaluateSpec (b : Board) : Outcome :=
  match WINNING_COMBINATIONS.findSome? (lineWinner b) with
  | some m => Outcome.win m
  | none =>
    if ∀ c ∈ b, c ≠ none then Outcome.draw
    else Outcome.inProgress

/-- The 9-bit mask of a WinLine triple. -/
def maskOf : Nat × Nat × Nat → Nat
  | (a, b2, c) => 2 ^ a ||| 2 ^ b2 ||| 2 ^ c

/-- Knuth–Moore fail-soft relation between the exact (unpruned) value `F`
and the alpha-beta result `r` for the window `(α, β)`: `r` equals `F`
inside the window, bounds it from above on fail-low and from below on
fail-high. -/
def ABRel (F r α β : Int) : Prop :=
  (F ≤ α → F ≤ r ∧ r ≤ α) ∧ (β ≤ F → β ≤ r ∧ r ≤ F) ∧
    (α < F → F < β → r = F)

theorem countEmpty_set_succ {b : Board} {i : Nat} (h : b.get? i = some none)
    (m : Mark) : countEmpty (b.set i (some m)) + 1 = countEmpty b := by
  induction b generalizing i with
  | nil => simp [List.get?] at h
  | cons c t ih =>
    cases i with
    | zero =>
      simp only [List.get?] at h
      cases h
      simp [countEmpty, List.set, List.countP_cons]
    | succ j =>
      simp only [List.get?] at h
      have := ih h
      simp only [countEmpty, List.set, List.countP_cons] at *
      omega

theorem countEmpty_le_length (b : Board) : countEmpty b ≤ b.length :=
  List.countP_le_length _

/-- Membership in `availableMoves` is exactly "the cell is `null`". -/
theorem mem_availableMoves {b : Board} {i : Nat} :
    i ∈ availableMoves b ↔ b.get? i = some none := by
  rw [availableMoves, List.mapIdx_eq_enum_map, List.mem_filterMap]
  constructor
  · rintro ⟨a, ha, hid⟩
    simp only [List.mem_map] at ha
    obtain ⟨⟨n, c⟩, hmem, hf⟩ := ha
    rw [List.mk_mem_enum_iff_get?] at hmem
    simp only [id] at hid
    subst hid
    simp only [Function.uncurry] at hf
    split at hf
    next hc =>
      cases hf
      subst hc
      exact hmem
    next hc => cases hf
  · intro h
    refine ⟨some i, ?_, rfl⟩
    simp only [List.mem_map]
    exact ⟨(i, none), List.mk_mem_enum_iff_get?.mpr h, by simp⟩

/-- An in-progress board that is not a draw has a `null` cell below its
length. -/
theorem exists_empty_of_not_draw {b : Board} (hw : checkWinner b = none)
    (hd : checkDraw b = false) :
    ∃ i, i < b.length ∧ b.get? i = some none := by
  rw [checkDraw, hw] at hd
  simp only [Option.isNone_none, Bool.and_true, List.all_eq_false] at hd
  obtain ⟨c, hc, hsome⟩ := hd
  obtain ⟨n, hn⟩ := List.mem_iff_get.mp hc
  refine ⟨n, n.isLt, ?_⟩
  rw [List.get?_eq_get n.isLt, hn]
  cases c with
  | none => rfl
  | some m => simp at hsome

/-- The Hard path of `getBestMove` ignores both random draws and always
takes the search path. -/
theorem getBestMove_hard (b : Board) (r1 r2 : ℚ) :
    getBestMove b Difficulty.hard r1 r2 = some (hardMove b) := rfl

theorem npMaxLoop_le {b : Board} {d : Nat} {B : Int} (l : List Nat) (bs : Int)
    (hbs : bs ≤ B)
    (hc : ∀ i ∈ l, b.get? i = some none →
      npMinimax (b.set i (some Mark.O)) (d + 1) false ≤ B) :
    npMaxLoop b d l bs ≤ B := by
  induction l generalizing bs with
  | nil => rw [npMaxLoop]; exact hbs
  | cons i rest ih =>
    rw [npMaxLoop]
    split
    next h =>
      exact ih (max _ bs)
        (max_le (hc i (by simp) h) hbs)
        (fun j hj hje => hc j (by simp [hj]) hje)
    next h =>
      exact ih bs hbs (fun j hj hje => hc j (by simp [hj]) hje)

theorem npMaxLoop_ge_seed {b : Board} {d : Nat} (l : List Nat) (bs : Int) :
    bs ≤ npMaxLoop b d l bs := by
  induction l generalizing bs with
  | nil => rw [npMaxLoop]
  | cons i rest ih =>
    rw [npMaxLoop]
    split
    next h => exact le_trans (le_max_right _ _) (ih (max _ bs))
    next h => exact ih bs

theorem npMaxLoop_ge_elem {b : Board} {d : Nat} {l : List Nat} {i : Nat}
    (hi : i ∈ l) (he : b.get? i = some none) (bs : Int) :
    npMinimax (b.set i (some Mark.O)) (d + 1) false ≤ npMaxLoop b d l bs := by
  induction l generalizing bs with
  | nil => cases hi
  | cons j rest ih =>
    rw [npMaxLoop]
    rcases List.mem_cons.mp hi with hji | hmem
    · subst hji
      rw [dif_pos he]
      exact le_trans (le_max_left _ _) (npMaxLoop_ge_seed _ _)
    · split
      next h => exact ih hmem _
      next h => exact ih hmem bs

theorem npMinLoop_ge {b : Board} {d : Nat} {L : Int} (l : List Nat) (bs : Int)
    (hbs : L ≤ bs)
    (hc : ∀ i ∈ l, b.get? i = some none →
      L ≤ npMinimax (b.set i (some Mark.X)) (d + 1) true) :
    L ≤ npMinLoop b d l bs := by
  induction l generalizing bs with
  | nil => rw [npMinLoop]; exact hbs
  | cons i rest ih =>
    rw [npMinLoop]
    split
    next h =>
      exact ih (min _ bs)
        (le_min (hc i (by simp) h) hbs)
        (fun j hj hje => hc j (by simp [hj]) hje)
    next h =>
      exact ih bs hbs (fun j hj hje => hc j (by simp [hj]) hje)

theorem npMinLoop_le_seed {b : Board} {d : Nat} (l : List Nat) (bs : Int) :
    npMinLoop b d l bs ≤ bs := by
  induction l generalizing bs with
  | nil => rw [npMinLoop]
  | cons i rest ih =>
    rw [npMinLoop]
    split
    next h => exact le_trans (ih (min _ bs)) (min_le_right _ _)
    next h => exact ih bs

theorem npMinLoop_le_elem {b : Board} {d : Nat} {l : List Nat} {i : Nat}
    (hi : i ∈ l) (he : b.get? i = some none) (bs : Int) :
    npMinLoop b d l bs ≤ npMinimax (b.set i (some Mark.X)) (d + 1) true := by
  induction l generalizing bs with
  | nil => cases hi
  | cons j rest ih =>
    rw [npMinLoop]
    rcases List.mem_cons.mp hi with hji | hmem
    · subst hji
      rw [dif_pos he]
      exact le_trans (npMinLoop_le_seed _ _) (min_le_left _ _)
    · split
      next h => exact ih hmem _
      next h => exact ih hmem bs

/-- Two-sided bound on the unpruned search value of a 9-cell board. -/
theorem npMinimax_bounds : ∀ (e : Nat) (b : Board), countEmpty b = e →
    b.length = 9 → ∀ (d : Nat) (pol : Bool),
    -(10 + (d : Int) + (e : Int)) ≤ npMinimax b d pol ∧
      npMinimax b d pol ≤ 10 + (d : Int) + (e : Int) := by
  intro e
  induction e using Nat.strong_induction_on with
  | _ e ih =>
    intro b hce hlen d pol
    rw [npMinimax]
    split
    next hw => constructor <;> omega
    next hw => constructor <;> omega
    next hw =>
      split
      next => constructor <;> omega
      next hd =>
        have hd' : checkDraw b = false := by
          revert hd; cases checkDraw b <;> simp
        obtain ⟨i0, hi0lt, hi0⟩ := exists_empty_of_not_draw hw hd'
        have hi0mem : i0 ∈ List.range 9 := by
          rw [List.mem_range]; omega
        have he1 : 1 ≤ e := by
          have := countEmpty_set_succ hi0 Mark.O
          omega
        split
        next hpol =>
          constructor
          · refine le_trans ?_ (npMaxLoop_ge_elem hi0mem hi0 negInf)
            have hcs := countEmpty_set_succ hi0 Mark.O
            have := (ih (e - 1) (by omega) (b.set i0 (some Mark.O)) (by omega)
              (by simpa using hlen) (d + 1) false).1
            have hcast : ((e - 1 : Nat) : Int) = (e : Int) - 1 := by omega
            rw [hcast] at this
            refine le_trans ?_ this
            push_cast
            omega
          · refine npMaxLoop_le _ _ ?_ ?_
            · show negInf ≤ _
              rw [negInf]
              omega
            · intro j hj hje
              have hcs := countEmpty_set_succ hje Mark.O
              have := (ih (e - 1) (by omega) (b.set j (some Mark.O)) (by omega)
                (by simpa using hlen) (d + 1) false).2
              have hcast : ((e - 1 : Nat) : Int) = (e : Int) - 1 := by omega
              rw [hcast] at this
              refine le_trans this ?_
              push_cast
              omega
        next hpol =>
          constructor
          · refine npMinLoop_ge _ _ ?_ ?_
            · show _ ≤ posInf
              rw [posInf]
              omega
            · intro j hj hje
              have hcs := countEmpty_set_succ hje Mark.X
              have := (ih (e - 1) (by omega) (b.set j (some Mark.X)) (by omega)
                (by simpa using hlen) (d + 1) true).1
              have hcast : ((e - 1 : Nat) : Int) = (e : Int) - 1 := by omega
              rw [hcast] at this
              refine le_trans ?_ this
              push_cast
              omega
          · refine le_trans (npMinLoop_le_elem hi0mem hi0 posInf) ?_
            have hcs := countEmpty_set_succ hi0 Mark.X
            have := (ih (e - 1) (by omega) (b.set i0 (some Mark.X)) (by omega)
              (by simpa using hlen) (d + 1) true).2
            have hcast : ((e - 1 : Nat) : Int) = (e : Int) - 1 := by omega
            rw [hcast] at this
            refine le_trans this ?_
            push_cast
            omega

theorem npMaxLoop_nonneg_iff {b : Board} {d : Nat} (l : List Nat) (bs : Int) :
    0 ≤ npMaxLoop b d l bs ↔ 0 ≤ bs ∨ ∃ i ∈ l, b.get? i = some none ∧
      0 ≤ npMinimax (b.set i (some Mark.O)) (d + 1) false := by
  induction l generalizing bs with
  | nil => rw [npMaxLoop]; simp
  | cons i rest ih =>
    rw [npMaxLoop]
    split
    next h =>
      rw [ih]
      constructor
      · rintro (hmax | ⟨j, hj, hje, hv⟩)
        · rcases le_max_iff.mp hmax with hs | hbs
          · exact Or.inr ⟨i, by simp, h, hs⟩
          · exact Or.inl hbs
        · exact Or.inr ⟨j, by simp [hj], hje, hv⟩
      · rintro (hbs | ⟨j, hj, hje, hv⟩)
        · exact Or.inl (le_max_of_le_right hbs)
        · rcases List.mem_cons.mp hj with hji | hmem
          · subst hji
            exact Or.inl (le_max_of_le_left hv)
          · exact Or.inr ⟨j, hmem, hje, hv⟩
    next h =>
      rw [ih]
      constructor
      · rintro (hbs | ⟨j, hj, hje, hv⟩)
        · exact Or.inl hbs
        · exact Or.inr ⟨j, by simp [hj], hje, hv⟩
      · rintro (hbs | ⟨j, hj, hje, hv⟩)
        · exact Or.inl hbs
        · rcases List.mem_cons.mp hj with hji | hmem
          · subst hji
            exact absurd hje h
          · exact Or.inr ⟨j, hmem, hje, hv⟩

theorem npMinLoop_nonneg_iff {b : Board} {d : Nat} (l : List Nat) (bs : Int) :
    0 ≤ npMinLoop b d l bs ↔ 0 ≤ bs ∧ ∀ i ∈ l, b.get? i = some none →
      0 ≤ npMinimax (b.set i (some Mark.X)) (d + 1) true := by
  induction l generalizing bs with
  | nil => rw [npMinLoop]; simp
  | cons i rest ih =>
    rw [npMinLoop]
    split
    next h =>
      rw [ih]
      constructor
      · rintro ⟨hmin, hrest⟩
        rcases le_min_iff.mp hmin with ⟨hs, hbs⟩
        refine ⟨hbs, ?_⟩
        intro j hj hje
        rcases List.mem_cons.mp hj with hji | hmem
        · subst hji
          exact hs
        · exact hrest j hmem hje
      · rintro ⟨hbs, hall⟩
        exact ⟨le_min (hall i (by simp) h) hbs,
          fun j hj hje => hall j (by simp [hj]) hje⟩
    next h =>
      rw [ih]
      constructor
      · rintro ⟨hbs, hrest⟩
        refine ⟨hbs, ?_⟩
        intro j hj hje
        rcases List.mem_cons.mp hj with hji | hmem
        · subst hji
          exact absurd hje h
        · exact hrest j hmem hje
      · rintro ⟨hbs, hall⟩
        exact ⟨hbs, fun j hj hje => hall j (by simp [hj]) hje⟩

/-- The sign of the unpruned search value does not depend on the root
depth offset (within the depth budget of a 9-cell game). -/
theorem npMinimax_nonneg_step : ∀ (e : Nat) (b : Board), countEmpty b = e →
    b.length = 9 → ∀ (d : Nat) (pol : Bool), d + 1 + e ≤ 9 →
    (0 ≤ npMinimax b d pol ↔ 0 ≤ npMinimax b (d + 1) pol) := by
  intro e
  induction e using Nat.strong_induction_on with
  | _ e ih =>
    intro b hce hlen d pol hdep
    rw [npMinimax, npMinimax]
    split
    next hw => constructor <;> intro <;> omega
    next hw => constructor <;> intro <;> omega
    next hw =>
      split
      next => constructor <;> intro <;> omega
      next hd =>
        split
        next hpol =>
          rw [npMaxLoop_nonneg_iff, npMaxLoop_nonneg_iff]
          have hni : ¬ (0 ≤ negInf) := by rw [negInf]; omega
          simp only [hni, false_or]
          constructor
          · rintro ⟨j, hj, hje, hv⟩
            refine ⟨j, hj, hje, ?_⟩
            have hcs := countEmpty_set_succ hje Mark.O
            exact (ih (e - 1) (by omega) _ (by omega) (by simpa using hlen)
              (d + 1) false (by omega)).mp hv
          · rintro ⟨j, hj, hje, hv⟩
            refine ⟨j, hj, hje, ?_⟩
            have hcs := countEmpty_set_succ hje Mark.O
            exact (ih (e - 1) (by omega) _ (by omega) (by simpa using hlen)
              (d + 1) false (by omega)).mpr hv
        next hpol =>
          rw [npMinLoop_nonneg_iff, npMinLoop_nonneg_iff]
          have hpi : (0:Int) ≤ posInf := by rw [posInf]; omega
          simp only [hpi, true_and]
          constructor
          · intro hall j hj hje
            have hcs := countEmpty_set_succ hje Mark.X
            exact (ih (e - 1) (by omega) _ (by omega) (by simpa using hlen)
              (d + 1) true (by omega)).mp (hall j hj hje)
          · intro hall j hj hje
            have hcs := countEmpty_set_succ hje Mark.X
            exact (ih (e - 1) (by omega) _ (by omega) (by simpa using hlen)
              (d + 1) true (by omega)).mpr (hall j hj hje)

theorem abRel_refl (F α β : Int) : ABRel F F α β :=
  ⟨fun h => ⟨le_refl _, h⟩, fun h => ⟨h, le_refl _⟩, fun _ _ => rfl⟩

theorem npMaxLoop_seed_out {b : Board} {d : Nat} (l : List Nat) (x bs : Int) :
    npMaxLoop b d l (max x bs) = max x (npMaxLoop b d l bs) := by
  induction l generalizing bs with
  | nil => rw [npMaxLoop, npMaxLoop]
  | cons i rest ih =>
    rw [npMaxLoop, npMaxLoop]
    split
    next h =>
      dsimp only
      rw [max_left_comm]
      exact ih (max _ bs)
    next h => exact ih bs

theorem npMinLoop_seed_out {b : Board} {d : Nat} (l : List Nat) (x bs : Int) :
    npMinLoop b d l (min x bs) = min x (npMinLoop b d l bs) := by
  induction l generalizing bs with
  | nil => rw [npMinLoop, npMinLoop]
  | cons i rest ih =>
    rw [npMinLoop, npMinLoop]
    split
    next h =>
      dsimp only
      rw [min_left_comm]
      exact ih (min _ bs)
    next h => exact ih bs

theorem abMaxLoop {b : Board} {d : Nat} {α β : Int}
    (hαβ : α < β) (hα : negInf ≤ α) (hβ : β ≤ posInf)
    (CP : ∀ i, b.get? i = some none →
      ∀ a' β' : Int, negInf ≤ a' → β' ≤ posInf → a' < β' →
      ABRel (npMinimax (b.set i (some Mark.O)) (d + 1) false)
        (minimax (b.set i (some Mark.O)) (d + 1) false a' β') a' β') :
    ∀ (l : List Nat) (bs a : Int), a = max α bs → bs < β → negInf ≤ bs →
      ABRel (npMaxLoop b d l bs) (maxLoop b d l bs a β) α β := by
  intro l
  induction l with
  | nil =>
    intro bs a ha hb hn
    rw [npMaxLoop, maxLoop]
    exact abRel_refl _ _ _
  | cons i rest ih =>
    intro bs a ha hb hn
    rw [npMaxLoop, maxLoop]
    by_cases h : b.get? i = some none
    · rw [dif_pos h, dif_pos h]
      dsimp only
      have hcp := CP i h a β (by omega) (by omega) (by omega)
      rw [npMaxLoop_seed_out]
      have hW := npMaxLoop_ge_seed (b := b) (d := d) rest bs
      set Fi := npMinimax (b.set i (some Mark.O)) (d + 1) false with hFi
      set s := minimax (b.set i (some Mark.O)) (d + 1) false a β with hs
      set W := npMaxLoop b d rest bs with hWdef
      rcases le_or_lt Fi a with hia | hia
      · obtain ⟨hs1, hs2⟩ := hcp.1 hia
        rw [if_neg (by omega)]
        have ihres := ih (max s bs) (max a s) (by omega) (by omega) (by omega)
        rw [npMaxLoop_seed_out, ← hWdef] at ihres
        refine ⟨?_, ?_, ?_⟩
        · intro hT
          have h2 : W ≤ α := by omega
          obtain ⟨g1, g2⟩ := ihres.1 (by omega)
          exact ⟨by omega, g2⟩
        · intro hT
          have hWβ : β ≤ W := by omega
          obtain ⟨g1, g2⟩ := ihres.2.1 (by omega)
          exact ⟨g1, by omega⟩
        · intro h1 h2
          have hmm : max s W = max Fi W := by omega
          rw [hmm] at ihres
          exact ihres.2.2 h1 h2
      · rcases le_or_lt β Fi with hib | hib
        · obtain ⟨hs1, hs2⟩ := hcp.2.1 hib
          rw [if_pos (by omega)]
          refine ⟨?_, ?_, ?_⟩
          · intro hT
            exact absurd hT (by omega)
          · intro hT
            constructor <;> omega
          · intro h1 h2
            exact absurd h2 (by omega)
        · have hsF : s = Fi := hcp.2.2 hia hib
          rw [if_neg (by omega)]
          have ihres := ih (max s bs) (max a s) (by omega) (by omega) (by omega)
          rw [npMaxLoop_seed_out, ← hWdef, hsF] at ihres
          rw [hsF]
          exact ihres
    · rw [dif_neg h, dif_neg h]
      exact ih bs a ha hb hn

theorem abMinLoop {b : Board} {d : Nat} {α β : Int}
    (hαβ : α < β) (hα : negInf ≤ α) (hβ : β ≤ posInf)
    (CP : ∀ i, b.get? i = some none →
      ∀ α' b' : Int, negInf ≤ α' → b' ≤ posInf → α' < b' →
      ABRel (npMinimax (b.set i (some Mark.X)) (d + 1) true)
        (minimax (b.set i (some Mark.X)) (d + 1) true α' b') α' b') :
    ∀ (l : List Nat) (bs bt : Int), bt = min β bs → α < bs → bs ≤ posInf →
      ABRel (npMinLoop b d l bs) (minLoop b d l bs α bt) α β := by
  intro l
  induction l with
  | nil =>
    intro bs bt hbt hb hn
    rw [npMinLoop, minLoop]
    exact abRel_refl _ _ _
  | cons i rest ih =>
    intro bs bt hbt hb hn
    rw [npMinLoop, minLoop]
    by_cases h : b.get? i = some none
    · rw [dif_pos h, dif_pos h]
      dsimp only
      have hcp := CP i h α bt (by omega) (by omega) (by omega)
      rw [npMinLoop_seed_out]
      have hV := npMinLoop_le_seed (b := b) (d := d) rest bs
      set Fi := npMinimax (b.set i (some Mark.X)) (d + 1) true with hFi
      set s := minimax (b.set i (some Mark.X)) (d + 1) true α bt with hs
      set V := npMinLoop b d rest bs with hVdef
      rcases le_or_lt bt Fi with hia | hia
      · obtain ⟨hs1, hs2⟩ := hcp.2.1 hia
        rw [if_neg (by omega)]
        have ihres := ih (min s bs) (min bt s) (by omega) (by omega) (by omega)
        rw [npMinLoop_seed_out, ← hVdef] at ihres
        refine ⟨?_, ?_, ?_⟩
        · intro hT
          have h2 : V ≤ α := by omega
          obtain ⟨g1, g2⟩ := ihres.1 (by omega)
          exact ⟨by omega, g2⟩
        · intro hT
          have hVβ : β ≤ V := by omega
          obtain ⟨g1, g2⟩ := ihres.2.1 (by omega)
          exact ⟨g1, by omega⟩
        · intro h1 h2
          have hmm : min s V = min Fi V := by omega
          rw [hmm] at ihres
          exact ihres.2.2 h1 h2
      · rcases le_or_lt Fi α with hib | hib
        · obtain ⟨hs1, hs2⟩ := hcp.1 hib
          rw [if_pos (by omega)]
          refine ⟨?_, ?_, ?_⟩
          · intro hT
            constructor <;> omega
          · intro hT
            exact absurd hT (by omega)
          · intro h1 h2
            exact absurd h1 (by omega)
        · have hsF : s = Fi := hcp.2.2 hib hia
          rw [if_neg (by omega)]
          have ihres := ih (min s bs) (min bt s) (by omega) (by omega) (by omega)
          rw [npMinLoop_seed_out, ← hVdef, hsF] at ihres
          rw [hsF]
          exact ihres
    · rw [dif_neg h, dif_neg h]
      exact ih bs bt hbt hb hn

/-- Fail-soft correctness of the pruned search against the exhaustive one,
for every window ordered between the sentinels. -/
theorem ab_correct : ∀ (e : Nat) (b : Board), countEmpty b = e →
    ∀ (d : Nat) (m : Bool) (α β : Int), negInf ≤ α → β ≤ posInf → α < β →
    ABRel (npMinimax b d m) (minimax b d m α β) α β := by
  intro e
  induction e using Nat.strong_induction_on with
  | _ e ih =>
    intro b hce d m α β hα hβ hαβ
    rw [npMinimax, minimax]
    cases hw : checkWinner b with
    | some mm =>
      cases mm
      · exact abRel_refl _ _ _
      · exact abRel_refl _ _ _
    | none =>
      by_cases hd : checkDraw b
      · rw [if_pos hd, if_pos hd]
        exact abRel_refl _ _ _
      · rw [if_neg hd, if_neg hd]
        cases m
        · rw [if_neg Bool.false_ne_true, if_neg Bool.false_ne_true]
          refine abMinLoop hαβ hα hβ ?_ (List.range 9) posInf β ?_ ?_ ?_
          · intro i hi α' b' h0 h1 h2
            have hcs := countEmpty_set_succ hi Mark.X
            exact ih (e - 1) (by omega) _ (by omega) (d + 1) true α' b'
              h0 h1 h2
          · omega
          · omega
          · omega
        · rw [if_pos rfl, if_pos rfl]
          refine abMaxLoop hαβ hα hβ ?_ (List.range 9) negInf α ?_ ?_ ?_
          · intro i hi a' β' h0 h1 h2
            have hcs := countEmpty_set_succ hi Mark.O
            exact ih (e - 1) (by omega) _ (by omega) (d + 1) false a' β'
              h0 h1 h2
          · omega
          · omega
          · omega

/-- At the root window `(-∞, +∞)` the pruned and the exhaustive search
agree exactly on every 9-cell board. -/
theorem minimax_eq_npMinimax {b : Board} (hlen : b.length = 9) (m : Bool) :
    minimax b 0 m negInf posInf = npMinimax b 0 m := by
  have habs := ab_correct (countEmpty b) b rfl 0 m negInf posInf (le_refl _)
    (le_refl _) (by rw [negInf, posInf]; omega)
  have hb := npMinimax_bounds (countEmpty b) b rfl hlen 0 m
  have hle : countEmpty b ≤ 9 := by
    have := countEmpty_le_length b
    omega
  refine habs.2.2 ?_ ?_
  · rw [negInf]
    omega
  · rw [posInf]
    omega

theorem bestMoveLoop_eq_np {b : Board} (hlen : b.length = 9) :
    ∀ (l : List Nat) (bm bsc : Int),
    bestMoveLoop b l bm bsc = npBestMoveLoop b l bm bsc := by
  intro l
  induction l with
  | nil => intro bm bsc; rw [bestMoveLoop, npBestMoveLoop]
  | cons i rest ih =>
    intro bm bsc
    rw [bestMoveLoop, npBestMoveLoop]
    by_cases h : b.get? i = some none
    · rw [if_pos h, if_pos h]
      dsimp only
      rw [minimax_eq_npMinimax (by simpa using hlen)]
      split
      next => exact ih _ _
      next => exact ih _ _
    · rw [if_neg h, if_neg h]
      exact ih _ _

/-- The Hard move and the move of the unpruned search coincide. -/
theorem hardMove_eq_npHardMove {b : Board} (hlen : b.length = 9) :
    hardMove b = npHardMove b :=
  bestMoveLoop_eq_np hlen _ _ _

theorem bestMoveLoop_no_empty {b : Board} :
    ∀ (l : List Nat), (∀ i ∈ l, b.get? i ≠ some none) →
    ∀ (bm bsc : Int), bestMoveLoop b l bm bsc = bm := by
  intro l
  induction l with
  | nil => intro _ bm bsc; rw [bestMoveLoop]
  | cons i rest ih =>
    intro h bm bsc
    rw [bestMoveLoop]
    rw [if_neg (h i (by simp))]
    exact ih (fun j hj => h j (by simp [hj])) bm bsc

/-- Invariant of the top-level best-move loop: either no processed empty
cell beats the running score and the running move is kept, or the result
is the first empty cell attaining the strict maximum of the scores. -/
theorem bestMoveLoop_spec {b : Board} :
    ∀ (l : List Nat) (bm bsc : Int),
    (bestMoveLoop b l bm bsc = bm ∧ ∀ j ∈ l, b.get? j = some none →
      minimax (b.set j (some Mark.O)) 0 false negInf posInf ≤ bsc)
    ∨ (∃ m, m ∈ l ∧ b.get? m = some none ∧
      bestMoveLoop b l bm bsc = Int.ofNat m ∧
      bsc < minimax (b.set m (some Mark.O)) 0 false negInf posInf ∧
      ∀ j ∈ l, b.get? j = some none →
        minimax (b.set j (some Mark.O)) 0 false negInf posInf ≤
          minimax (b.set m (some Mark.O)) 0 false negInf posInf) := by
  intro l
  induction l with
  | nil => intro bm bsc; exact Or.inl ⟨by rw [bestMoveLoop], by simp⟩
  | cons i rest ih =>
    intro bm bsc
    rw [bestMoveLoop]
    by_cases h : b.get? i = some none
    · rw [if_pos h]
      dsimp only
      split
      next hgt =>
        rcases ih (Int.ofNat i) (minimax (b.set i (some Mark.O)) 0 false negInf posInf) with
          ⟨heq, hall⟩ | ⟨m, hm, hme, heq, hlt, hall⟩
        · refine Or.inr ⟨i, by simp, h, heq, by omega, ?_⟩
          intro j hj hje
          rcases List.mem_cons.mp hj with hji | hmem
          · subst hji; exact le_refl _
          · exact hall j hmem hje
        · refine Or.inr ⟨m, by simp [hm], hme, heq, by omega, ?_⟩
          intro j hj hje
          rcases List.mem_cons.mp hj with hji | hmem
          · subst hji; omega
          · exact hall j hmem hje
      next hgt =>
        rcases ih bm bsc with ⟨heq, hall⟩ | ⟨m, hm, hme, heq, hlt, hall⟩
        · refine Or.inl ⟨heq, ?_⟩
          intro j hj hje
          rcases List.mem_cons.mp hj with hji | hmem
          · subst hji; omega
          · exact hall j hmem hje
        · refine Or.inr ⟨m, by simp [hm], hme, heq, hlt, ?_⟩
          intro j hj hje
          rcases List.mem_cons.mp hj with hji | hmem
          · subst hji; omega
          · exact hall j hmem hje
    · rw [if_neg h]
      rcases ih bm bsc with ⟨heq, hall⟩ | ⟨m, hm, hme, heq, hlt, hall⟩
      · refine Or.inl ⟨heq, ?_⟩
        intro j hj hje
        rcases List.mem_cons.mp hj with hji | hmem
        · subst hji; exact absurd hje h
        · exact hall j hmem hje
      · refine Or.inr ⟨m, by simp [hm], hme, heq, hlt, ?_⟩
        intro j hj hje
        rcases List.mem_cons.mp hj with hji | hmem
        · subst hji; exact absurd hje h
        · exact hall j hmem hje

/-- Every root score of the Hard search strictly exceeds the `-Infinity`
sentinel it is compared against. -/
theorem score_gt_negInf {b : Board} (hlen : b.length = 9) {j : Nat}
    (hj : b.get? j = some none) :
    negInf < minimax (b.set j (some Mark.O)) 0 false negInf posInf := by
  rw [minimax_eq_npMinimax (by simpa using hlen)]
  have hb := (npMinimax_bounds (countEmpty (b.set j (some Mark.O)))
    (b.set j (some Mark.O)) rfl (by simpa using hlen) 0 false).1
  have hle : countEmpty (b.set j (some Mark.O)) ≤ 9 := by
    have := countEmpty_le_length (b.set j (some Mark.O))
    simp only [List.length_set, hlen] at this
    omega
  rw [negInf]
  omega

/-- On a 9-cell board with an empty cell, `hardMove` returns an empty cell
index below 9 whose root score is maximal among all empty cells. -/
theorem hardMove_spec {b : Board} (hlen : b.length = 9) {j0 : Nat}
    (hj0 : b.get? j0 = some none) :
    ∃ m, m < 9 ∧ b.get? m = some none ∧ hardMove b = Int.ofNat m ∧
      ∀ j, b.get? j = some none →
        minimax (b.set j (some Mark.O)) 0 false negInf posInf ≤
          minimax (b.set m (some Mark.O)) 0 false negInf posInf := by
  have hj0lt : j0 < 9 := by
    obtain ⟨hh, _⟩ := List.get?_eq_some.mp hj0
    omega
  rcases bestMoveLoop_spec (b := b) (List.range 9) (-1) negInf with
    ⟨heq, hall⟩ | ⟨m, hm, hme, heq, hlt, hall⟩
  · exact absurd (hall j0 (by rw [List.mem_range]; omega) hj0)
      (by have := score_gt_negInf hlen hj0; omega)
  · refine ⟨m, List.mem_range.mp hm, hme, heq, ?_⟩
    intro j hj
    have hjlt : j < 9 := by
      obtain ⟨hh, _⟩ := List.get?_eq_some.mp hj
      omega
    exact hall j (by rw [List.mem_range]; omega) hj

theorem maxLoopF_eq {b : Board} {d : Nat} {scoreOf : Board → Int → Int → Int}
    (hs : ∀ i, b.get? i = some none → ∀ α β : Int,
      scoreOf (b.set i (some Mark.O)) α β =
        minimax (b.set i (some Mark.O)) (d + 1) false α β) :
    ∀ (l : List Nat) (bs α β : Int),
    maxLoopF scoreOf b l bs α β = maxLoop b d l bs α β := by
  intro l
  induction l with
  | nil => intro bs α β; rw [maxLoopF, maxLoop]
  | cons i rest ih =>
    intro bs α β
    rw [maxLoopF, maxLoop]
    by_cases h : b.get? i = some none
    · rw [if_pos h, dif_pos h]
      dsimp only
      rw [hs i h]
      by_cases hc : β ≤ max α (minimax (b.set i (some Mark.O)) (d + 1) false α β)
      · rw [if_pos hc, if_pos hc]
      · rw [if_neg hc, if_neg hc]
        exact ih _ _ _
    · rw [if_neg h, dif_neg h]
      exact ih _ _ _

theorem minLoopF_eq {b : Board} {d : Nat} {scoreOf : Board → Int → Int → Int}
    (hs : ∀ i, b.get? i = some none → ∀ α β : Int,
      scoreOf (b.set i (some Mark.X)) α β =
        minimax (b.set i (some Mark.X)) (d + 1) true α β) :
    ∀ (l : List Nat) (bs α β : Int),
    minLoopF scoreOf b l bs α β = minLoop b d l bs α β := by
  intro l
  induction l with
  | nil => intro bs α β; rw [minLoopF, minLoop]
  | cons i rest ih =>
    intro bs α β
    rw [minLoopF, minLoop]
    by_cases h : b.get? i = some none
    · rw [if_pos h, dif_pos h]
      dsimp only
      rw [hs i h]
      by_cases hc : min β (minimax (b.set i (some Mark.X)) (d + 1) true α β) ≤ α
      · rw [if_pos hc, if_pos hc]
      · rw [if_neg hc, if_neg hc]
        exact ih _ _ _
    · rw [if_neg h, dif_neg h]
      exact ih _ _ _

/-- With enough fuel the structural twin agrees with `minimax`. -/
theorem minimaxF_eq : ∀ (fuel : Nat) (b : Board), countEmpty b < fuel →
    ∀ (d : Nat) (m : Bool) (α β : Int),
    minimaxF fuel b d m α β = minimax b d m α β := by
  intro fuel
  induction fuel with
  | zero => intro b h; exact absurd h (by omega)
  | succ fuel ih =>
    intro b h d m α β
    rw [minimaxF, minimax]
    cases hw : checkWinner b with
    | some mm => cases mm <;> rfl
    | none =>
      by_cases hd : checkDraw b
      · rw [if_pos hd, if_pos hd]
      · rw [if_neg hd, if_neg hd]
        cases m
        · rw [if_neg Bool.false_ne_true, if_neg Bool.false_ne_true]
          refine minLoopF_eq ?_ _ _ _ _
          intro i hi α' β'
          have hcs := countEmpty_set_succ hi Mark.X
          exact ih _ (by omega) (d + 1) true α' β'
        · rw [if_pos rfl, if_pos rfl]
          refine maxLoopF_eq ?_ _ _ _ _
          intro i hi α' β'
          have hcs := countEmpty_set_succ hi Mark.O
          exact ih _ (by omega) (d + 1) false α' β'

theorem bestMoveLoopF_eq {b : Board} {scoreOf : Board → Int}
    (hs : ∀ i, b.get? i = some none →
      scoreOf (b.set i (some Mark.O)) =
        minimax (b.set i (some Mark.O)) 0 false negInf posInf) :
    ∀ (l : List Nat) (bm bsc : Int),
    bestMoveLoopF scoreOf b l bm bsc = bestMoveLoop b l bm bsc := by
  intro l
  induction l with
  | nil => intro bm bsc; rw [bestMoveLoopF, bestMoveLoop]
  | cons i rest ih =>
    intro bm bsc
    rw [bestMoveLoopF, bestMoveLoop]
    by_cases h : b.get? i = some none
    · rw [if_pos h, if_pos h]
      dsimp only
      rw [hs i h]
      split
      next => exact ih _ _
      next => exact ih _ _
    · rw [if_neg h, if_neg h]
      exact ih _ _

theorem hardMoveF_eq {fuel : Nat} {b : Board} (h : countEmpty b ≤ fuel) :
    hardMoveF fuel b = hardMove b := by
  refine bestMoveLoopF_eq ?_ _ _ _
  intro i hi
  have hcs := countEmpty_set_succ hi Mark.O
  exact minimaxF_eq fuel _ (by omega) 0 false negInf posInf

theorem hardMove_boardC5 : hardMove boardC5 = 5 := by
  rw [← @hardMoveF_eq 9 boardC5 (by decide)]
  decide

theorem getBestMove_easy_rand (b : Board) (r1 r2 : ℚ) (hg : r1 < 7/10) :
    getBestMove b Difficulty.easy r1 r2 =
      ((availableMoves b).get?
        (Nat.floor (r2 * ((availableMoves b).length : ℚ)))).map
        (fun n => (n : Int)) := by
  rw [getBestMove]
  rw [if_pos ⟨rfl, hg⟩]

theorem getBestMove_easy_search (b : Board) (r1 r2 : ℚ) (hg : ¬ r1 < 7/10) :
    getBestMove b Difficulty.easy r1 r2 = some (hardMove b) := by
  rw [getBestMove]
  rw [if_neg (fun hc => hg hc.2), if_neg (by simp)]
  rfl

theorem getBestMove_medium_rand (b : Board) (r1 r2 : ℚ) (hg : r1 < 3/10) :
    getBestMove b Difficulty.medium r1 r2 =
      ((availableMoves b).get?
        (Nat.floor (r2 * ((availableMoves b).length : ℚ)))).map
        (fun n => (n : Int)) := by
  rw [getBestMove]
  rw [if_neg (by simp), if_pos ⟨rfl, hg⟩]

theorem getBestMove_medium_search (b : Board) (r1 r2 : ℚ) (hg : ¬ r1 < 3/10) :
    getBestMove b Difficulty.medium r1 r2 = some (hardMove b) := by
  rw [getBestMove]
  rw [if_neg (by simp), if_neg (fun hc => hg hc.2)]
  rfl

/-- The uniform random pick lands on a member of `availableMoves`. -/
theorem randomPick_valid (b : Board) {j0 : Nat} (hj0 : b.get? j0 = some none)
    (r2 : ℚ) (hr0 : 0 ≤ r2) (hr1 : r2 < 1) :
    ∃ i : Nat,
      ((availableMoves b).get?
        (Nat.floor (r2 * ((availableMoves b).length : ℚ)))).map
        (fun n => (n : Int)) = some (Int.ofNat i) ∧ i ∈ availableMoves b := by
  have hmem := mem_availableMoves.mpr hj0
  have hlen0 : 0 < (availableMoves b).length := List.length_pos_of_mem hmem
  have hk : Nat.floor (r2 * ((availableMoves b).length : ℚ)) <
      (availableMoves b).length := by
    rw [Nat.floor_lt (mul_nonneg hr0 (by positivity))]
    calc r2 * ((availableMoves b).length : ℚ)
        < 1 * ((availableMoves b).length : ℚ) := by
          apply mul_lt_mul_of_pos_right hr1
          exact_mod_cast hlen0
      _ = ((availableMoves b).length : ℚ) := one_mul _
  refine ⟨(availableMoves b).get ⟨_, hk⟩, ?_, List.get_mem _ _ _⟩
  rw [List.get?_eq_get hk]
  rfl

theorem no_empty_of_countEmpty_zero {b : Board} (hfull : countEmpty b = 0)
    (i : Nat) : b.get? i ≠ some none := by
  intro hi
  have hmem := List.get?_mem hi
  have := List.countP_eq_zero.mp hfull _ hmem
  simp at this

/-- C2: On every 9-cell board with `InProgress` outcome and at least
one Empty cell, `selectMove` (`getBestMove`) returns — for every
difficulty and every outcome of the two random draws — an index `i` with
`0 ≤ i ≤ 8` and `board[i] = Empty`. -/
theorem selectMove_valid (b : Board) (hlen : b.length = 9)
    (hprog : evaluate b = Outcome.inProgress) (j0 : Nat)
    (hj0 : b.get? j0 = some none) (difficulty : Difficulty) (r1 r2 : ℚ)
    (hr0 : 0 ≤ r2) (hr1 : r2 < 1) :
    ∃ i : Nat, getBestMove b difficulty r1 r2 = some (Int.ofNat i) ∧
      i ≤ 8 ∧ b.get? i = some none := by
  have hhard : ∃ i : Nat, some (hardMove b) = some (Int.ofNat i) ∧
      i ≤ 8 ∧ b.get? i = some none := by
    obtain ⟨m, hm9, hme, heq, _⟩ := hardMove_spec hlen hj0
    exact ⟨m, by rw [heq], by omega, hme⟩
  have hrand : ∃ i : Nat,
      ((availableMoves b).get?
        (Nat.floor (r2 * ((availableMoves b).length : ℚ)))).map
        (fun n => (n : Int)) = some (Int.ofNat i) ∧
      i ≤ 8 ∧ b.get? i = some none := by
    obtain ⟨i, heq, hmem⟩ := randomPick_valid b hj0 r2 hr0 hr1
    have hie := mem_availableMoves.mp hmem
    obtain ⟨hlt, _⟩ := List.get?_eq_some.mp hie
    exact ⟨i, heq, by omega, hie⟩
  cases difficulty with
  | easy =>
    by_cases hg : r1 < 7/10
    · rw [getBestMove_easy_rand b r1 r2 hg]
      exact hrand
    · rw [getBestMove_easy_search b r1 r2 hg]
      exact hhard
  | medium =>
    by_cases hg : r1 < 3/10
    · rw [getBestMove_medium_rand b r1 r2 hg]
      exact hrand
    · rw [getBestMove_medium_search b r1 r2 hg]
      exact hhard
  | hard =>
    rw [getBestMove_hard]
    exact hhard

theorem selectMove_valid_witness :
    emptyBoard.length = 9 ∧ evaluate emptyBoard = Outcome.inProgress ∧
      emptyBoard.get? 0 = some none ∧ (0:ℚ) ≤ 0 ∧ (0:ℚ) < 1 ∧
      ∃ i : Nat, getBestMove emptyBoard Difficulty.easy 0 0 =
        some (Int.ofNat i) ∧ i ≤ 8 ∧ emptyBoard.get? i = some none :=
  ⟨by decide, by decide, by decide, by decide, by decide,
    selectMove_valid emptyBoard (by decide) (by decide) 0 (by decide)
      Difficulty.easy 0 0 (by decide) (by decide)⟩

/-- C7: On a board whose only Empty cell (below index 9) is `i`,
`selectMove` returns `i` for every difficulty and every random draw. -/
theorem selectMove_single_empty (b : Board) (hlen : b.length = 9)
    (hprog : evaluate b = Outcome.inProgress) (i : Nat)
    (hi : b.get? i = some none)
    (huniq : ∀ j, j < 9 → b.get? j = some none → j = i)
    (difficulty : Difficulty) (r1 r2 : ℚ) (hr0 : 0 ≤ r2) (hr1 : r2 < 1) :
    getBestMove b difficulty r1 r2 = some (Int.ofNat i) := by
  have hhard : some (hardMove b) = some (Int.ofNat i) := by
    obtain ⟨m, hm9, hme, heq, _⟩ := hardMove_spec hlen hi
    rw [heq, huniq m hm9 hme]
  have hrand :
      ((availableMoves b).get?
        (Nat.floor (r2 * ((availableMoves b).length : ℚ)))).map
        (fun n => (n : Int)) = some (Int.ofNat i) := by
    obtain ⟨x, heq, hmem⟩ := randomPick_valid b hi r2 hr0 hr1
    have hxe := mem_availableMoves.mp hmem
    obtain ⟨hlt, _⟩ := List.get?_eq_some.mp hxe
    rw [heq, huniq x (by omega) hxe]
  cases difficulty with
  | easy =>
    by_cases hg : r1 < 7/10
    · rw [getBestMove_easy_rand b r1 r2 hg]
      exact hrand
    · rw [getBestMove_easy_search b r1 r2 hg]
      exact hhard
  | medium =>
    by_cases hg : r1 < 3/10
    · rw [getBestMove_medium_rand b r1 r2 hg]
      exact hrand
    · rw [getBestMove_medium_search b r1 r2 hg]
      exact hhard
  | hard =>
    rw [getBestMove_hard]
    exact hhard

theorem selectMove_single_empty_witness :
    boardOneEmpty.length = 9 ∧
      evaluate boardOneEmpty = Outcome.inProgress ∧
      boardOneEmpty.get? 8 = some none ∧
      (∀ j, j < 9 → boardOneEmpty.get? j = some none → j = 8) ∧
      (0:ℚ) ≤ 0 ∧ (0:ℚ) < 1 ∧
      getBestMove boardOneEmpty Difficulty.easy 0 0 = some (Int.ofNat 8) :=
  ⟨by decide, by decide, by decide, by decide, by decide, by decide,
    selectMove_single_empty boardOneEmpty (by decide) (by decide) 8
      (by decide) (by decide) Difficulty.easy 0 0 (by decide) (by decide)⟩

/-- C10: On a board with zero Empty cells the Hard path of
`getBestMove` silently returns `-1`, which is outside the valid index
range `0..8`. -/
theorem getBestMove_full_hard_neg_one (b : Board) (hfull : countEmpty b = 0)
    (r1 r2 : ℚ) :
    getBestMove b Difficulty.hard r1 r2 = some (-1) ∧
      ¬ (0 ≤ (-1 : Int) ∧ (-1 : Int) ≤ 8) := by
  refine ⟨?_, by omega⟩
  rw [getBestMove_hard, hardMove]
  rw [bestMoveLoop_no_empty _ (fun j _ => no_empty_of_countEmpty_zero hfull j)]

theorem getBestMove_full_hard_neg_one_witness :
    countEmpty (boardOneEmpty.set 8 (some Mark.O)) = 0 ∧
      getBestMove (boardOneEmpty.set 8 (some Mark.O)) Difficulty.hard 0 0 =
        some (-1) ∧ ¬ (0 ≤ (-1 : Int) ∧ (-1 : Int) ≤ 8) :=
  ⟨by decide,
    (getBestMove_full_hard_neg_one (boardOneEmpty.set 8 (some Mark.O))
      (by decide) 0 0).1,
    (getBestMove_full_hard_neg_one (boardOneEmpty.set 8 (some Mark.O))
      (by decide) 0 0).2⟩

theorem availableMoves_eq_nil {b : Board} (hfull : countEmpty b = 0) :
    availableMoves b = [] := by
  rw [List.eq_nil_iff_forall_not_mem]
  intro i hi
  exact no_empty_of_countEmpty_zero hfull i (mem_availableMoves.mp hi)

/-- C6 amended: On a board with zero Empty cells `selectMove` does
not fail fast: the search paths silently return the out-of-range index
`-1`, and the randomized paths index an empty list, yielding JavaScript
`undefined` (`none`); no error is signalled on any path. -/
theorem selectMove_full_no_failfast (b : Board) (hfull : countEmpty b = 0)
    (difficulty : Difficulty) (r1 r2 : ℚ) :
    getBestMove b difficulty r1 r2 = some (-1) ∨
      getBestMove b difficulty r1 r2 = none := by
  have hhard : some (hardMove b) = some (-1 : Int) := by
    rw [hardMove]
    rw [bestMoveLoop_no_empty _ (fun j _ => no_empty_of_countEmpty_zero hfull j)]
  have hrand :
      ((availableMoves b).get?
        (Nat.floor (r2 * ((availableMoves b).length : ℚ)))).map
        (fun n => (n : Int)) = none := by
    rw [availableMoves_eq_nil hfull]
    rfl
  cases difficulty with
  | easy =>
    by_cases hg : r1 < 7/10
    · rw [getBestMove_easy_rand b r1 r2 hg, hrand]
      exact Or.inr rfl
    · rw [getBestMove_easy_search b r1 r2 hg]
      exact Or.inl hhard
  | medium =>
    by_cases hg : r1 < 3/10
    · rw [getBestMove_medium_rand b r1 r2 hg, hrand]
      exact Or.inr rfl
    · rw [getBestMove_medium_search b r1 r2 hg]
      exact Or.inl hhard
  | hard =>
    rw [getBestMove_hard]
    exact Or.inl hhard

theorem selectMove_full_no_failfast_witness :
    countEmpty (boardOneEmpty.set 8 (some Mark.O)) = 0 ∧
      (getBestMove (boardOneEmpty.set 8 (some Mark.O)) Difficulty.easy 0 0 =
        some (-1) ∨
      getBestMove (boardOneEmpty.set 8 (some Mark.O)) Difficulty.easy 0 0 =
        none) :=
  ⟨by decide, selectMove_full_no_failfast _ (by decide) Difficulty.easy 0 0⟩

/-- C6 counterexample (to the claim as stated): On a concrete full
board, `selectMove` with difficulty Hard silently returns the invalid
index `-1` instead of failing with a contract-violation error. -/
theorem selectMove_full_counterexample :
    getBestMove (boardOneEmpty.set 8 (some Mark.O)) Difficulty.hard 0 0 =
      some (-1) ∧ ¬ (0 ≤ (-1 : Int) ∧ (-1 : Int) ≤ 8) := by
  constructor
  · decide
  · omega

/-- C9: `evaluate` is a pure function of the board and the Hard path
of `selectMove` is independent of both random draws. -/
theorem evaluate_hard_deterministic (b : Board) (r1 r2 r1' r2' : ℚ) :
    evaluate b = evaluate b ∧
      getBestMove b Difficulty.hard r1 r2 =
        getBestMove b Difficulty.hard r1' r2' :=
  ⟨rfl, by rw [getBestMove_hard, getBestMove_hard]⟩

/-- C5 counterexample (to the claim as stated): On the spec's example
board `[A, A, Empty, B, B, Empty, Empty, Empty, Empty]`, Hard
`selectMove` returns index 5 — completing MarkB's own row `[3,4,5]` for an
immediate win — not the blocking index 2. -/
theorem hard_boardC5_counterexample :
    getBestMove boardC5 Difficulty.hard 0 0 = some 5 ∧
      getBestMove boardC5 Difficulty.hard 0 0 ≠ some 2 := by
  rw [getBestMove_hard boardC5 (0:ℚ) (0:ℚ), hardMove_boardC5]
  exact ⟨rfl, by simp⟩

/-- C5 amended: On the spec's example board, Hard `selectMove`
returns index 5 (the winning move takes priority over blocking), for
every random draw. -/
theorem hard_boardC5_returns_five (r1 r2 : ℚ) :
    getBestMove boardC5 Difficulty.hard r1 r2 = some 5 := by
  rw [getBestMove_hard, hardMove_boardC5]

/-- C4: Alpha-beta pruning does not change the search result: on every
9-cell board the pruned `minimax`, called at the root with
`alpha = -Infinity` and `beta = Infinity`, returns the value of the
exhaustive search, and the Hard move of `getBestMove` equals the move the
unpruned search would choose. -/
theorem pruning_preserves_search (b : Board) (hlen : b.length = 9) :
    (∀ m : Bool, minimax b 0 m negInf posInf = npMinimax b 0 m) ∧
      ∀ r1 r2 : ℚ, getBestMove b Difficulty.hard r1 r2 =
        some (npHardMove b) :=
  ⟨fun m => minimax_eq_npMinimax hlen m,
   fun r1 r2 => by rw [getBestMove_hard, hardMove_eq_npHardMove hlen]⟩

theorem pruning_preserves_search_witness :
    emptyBoard.length = 9 ∧
      ((∀ m : Bool, minimax emptyBoard 0 m negInf posInf =
          npMinimax emptyBoard 0 m) ∧
        ∀ r1 r2 : ℚ, getBestMove emptyBoard Difficulty.hard r1 r2 =
          some (npHardMove emptyBoard)) :=
  ⟨by decide, pruning_preserves_search emptyBoard (by decide)⟩

theorem checkWinnerAux_eq_findSome {b : Board} (hlen : b.length = 9) :
    ∀ (L : List (Nat × Nat × Nat)),
    (∀ t ∈ L, t.1 < 9 ∧ t.2.1 < 9 ∧ t.2.2 < 9) →
    checkWinnerAux b L = L.findSome? (lineWinner b) := by
  intro L
  induction L with
  | nil => intro _; rw [checkWinnerAux, List.findSome?_nil]
  | cons t rest ih =>
    intro hb
    obtain ⟨x, y, z⟩ := t
    have hball := hb (x, y, z) (by simp)
    have hx : x < 9 := hball.1
    have hy : y < 9 := hball.2.1
    have hz : z < 9 := hball.2.2
    rw [checkWinnerAux, List.findSome?_cons]
    have hgx : b.get? x = some (b.getD x none) := by
      rw [List.get?_eq_get (by omega), List.getD_eq_get _ _ (by omega)]
    have hgy : b.get? y = some (b.getD y none) := by
      rw [List.get?_eq_get (by omega), List.getD_eq_get _ _ (by omega)]
    have hgz : b.get? z = some (b.getD z none) := by
      rw [List.get?_eq_get (by omega), List.getD_eq_get _ _ (by omega)]
    rw [hgx]
    cases hcx : b.getD x none with
    | none =>
      rw [lineWinner]
      rw [hcx]
      exact ih (fun t ht => hb t (by simp [ht]))
    | some m =>
      rw [lineWinner, hcx]
      dsimp only
      have hyiff : (b.get? y = some (some m)) ↔ (b.getD y none = some m) := by
        rw [hgy, Option.some_inj]
      have hziff : (b.get? z = some (some m)) ↔ (b.getD z none = some m) := by
        rw [hgz, Option.some_inj]
      by_cases hc : b.getD y none = some m ∧ b.getD z none = some m
      · rw [if_pos ⟨hyiff.mpr hc.1, hziff.mpr hc.2⟩, if_pos hc]
      · rw [if_neg (fun hk => hc ⟨hyiff.mp hk.1, hziff.mp hk.2⟩), if_neg hc]
        exact ih (fun t ht => hb t (by simp [ht]))

/-- C3: On every 9-cell board, `evaluate` (the composition of
`checkWinner` and `checkDraw`) agrees with the spec-worded Outcome
Evaluator: `Win m` for the first completed WinLine in the fixed order,
`Draw` when no line is completed and no cell is Empty, `InProgress`
otherwise. -/
theorem evaluate_eq_spec (b : Board) (hlen : b.length = 9) :
    evaluate b = evaluateSpec b := by
  rw [evaluate, evaluateSpec, checkWinner,
    checkWinnerAux_eq_findSome hlen WINNING_COMBINATIONS (by decide)]
  cases hw : WINNING_COMBINATIONS.findSome? (lineWinner b) with
  | some m => rfl
  | none =>
    rw [checkDraw, checkWinner,
      checkWinnerAux_eq_findSome hlen WINNING_COMBINATIONS (by decide), hw]
    simp only [Option.isNone_none, Bool.and_true]
    by_cases hall : ∀ c ∈ b, c ≠ none
    · rw [if_pos hall, if_pos ?_]
      rw [List.all_eq_true]
      intro c hc
      cases hcv : c with
      | none => exact absurd hcv (hall c hc)
      | some mm => rfl
    · rw [if_neg hall, if_neg ?_]
      intro hk
      apply hall
      intro c hc
      have := List.all_eq_true.mp hk c hc
      cases c with
      | none => simp at this
      | some mm => simp

theorem evaluate_eq_spec_witness :
    boardC5.length = 9 ∧ evaluate boardC5 = evaluateSpec boardC5 :=
  ⟨by decide, evaluate_eq_spec boardC5 (by decide)⟩

theorem set_none_self {b : Board} {i : Nat} (h : b.get? i = some none) :
    b.set i none = b := by
  induction b generalizing i with
  | nil => rfl
  | cons c t ih =>
    cases i with
    | zero =>
      simp only [List.get?] at h
      cases h
      rfl
    | succ j =>
      simp only [List.get?] at h
      simp only [List.set]
      rw [ih h]

theorem restore_set {b : Board} {i : Nat} (h : b.get? i = some none)
    (m : Mark) : (b.set i (some m)).set i none = b := by
  rw [List.set_set]
  exact set_none_self h

theorem maxLoopS_eq {b : Board} {d : Nat}
    {recS : Board → Int → Int → Int × Board}
    (hrec : ∀ i, b.get? i = some none → ∀ α β : Int,
      recS (b.set i (some Mark.O)) α β =
        (minimax (b.set i (some Mark.O)) (d + 1) false α β,
          b.set i (some Mark.O))) :
    ∀ (l : List Nat) (bs α β : Int),
    maxLoopS recS b l bs α β = (maxLoop b d l bs α β, b) := by
  intro l
  induction l with
  | nil => intro bs α β; rw [maxLoopS, maxLoop]
  | cons i rest ih =>
    intro bs α β
    rw [maxLoopS, maxLoop]
    by_cases h : b.get? i = some none
    · rw [if_pos h, dif_pos h]
      dsimp only
      rw [hrec i h]
      dsimp only
      rw [restore_set h]
      split
      next => rfl
      next => exact ih _ _ _
    · rw [if_neg h, dif_neg h]
      exact ih _ _ _

theorem minLoopS_eq {b : Board} {d : Nat}
    {recS : Board → Int → Int → Int × Board}
    (hrec : ∀ i, b.get? i = some none → ∀ α β : Int,
      recS (b.set i (some Mark.X)) α β =
        (minimax (b.set i (some Mark.X)) (d + 1) true α β,
          b.set i (some Mark.X))) :
    ∀ (l : List Nat) (bs α β : Int),
    minLoopS recS b l bs α β = (minLoop b d l bs α β, b) := by
  intro l
  induction l with
  | nil => intro bs α β; rw [minLoopS, minLoop]
  | cons i rest ih =>
    intro bs α β
    rw [minLoopS, minLoop]
    by_cases h : b.get? i = some none
    · rw [if_pos h, dif_pos h]
      dsimp only
      rw [hrec i h]
      dsimp only
      rw [restore_set h]
      split
      next => rfl
      next => exact ih _ _ _
    · rw [if_neg h, dif_neg h]
      exact ih _ _ _

/-- With enough fuel the stateful search returns the pure value and the
unchanged board: every hypothetical mark is restored. -/
theorem minimaxS_eq : ∀ (fuel : Nat) (b : Board), countEmpty b < fuel →
    ∀ (d : Nat) (m : Bool) (α β : Int),
    minimaxS fuel b d m α β = (minimax b d m α β, b) := by
  intro fuel
  induction fuel with
  | zero => intro b h; exact absurd h (by omega)
  | succ fuel ih =>
    intro b h d m α β
    rw [minimaxS, minimax]
    cases hw : checkWinner b with
    | some mm => cases mm <;> rfl
    | none =>
      by_cases hd : checkDraw b
      · rw [if_pos hd, if_pos hd]
      · rw [if_neg hd, if_neg hd]
        cases m
        · rw [if_neg Bool.false_ne_true, if_neg Bool.false_ne_true]
          refine minLoopS_eq ?_ _ _ _ _
          intro i hi α' β'
          have hcs := countEmpty_set_succ hi Mark.X
          exact ih _ (by omega) (d + 1) true α' β'
        · rw [if_pos rfl, if_pos rfl]
          refine maxLoopS_eq ?_ _ _ _ _
          intro i hi α' β'
          have hcs := countEmpty_set_succ hi Mark.O
          exact ih _ (by omega) (d + 1) false α' β'

theorem bestMoveLoopS_eq {b : Board} {scoreOf : Board → Int × Board}
    (hs : ∀ i, b.get? i = some none →
      scoreOf (b.set i (some Mark.O)) =
        (minimax (b.set i (some Mark.O)) 0 false negInf posInf,
          b.set i (some Mark.O))) :
    ∀ (l : List Nat) (bm bsc : Int),
    bestMoveLoopS scoreOf b l bm bsc = (bestMoveLoop b l bm bsc, b) := by
  intro l
  induction l with
  | nil => intro bm bsc; rw [bestMoveLoopS, bestMoveLoop]
  | cons i rest ih =>
    intro bm bsc
    rw [bestMoveLoopS, bestMoveLoop]
    by_cases h : b.get? i = some none
    · rw [if_pos h, if_pos h]
      dsimp only
      rw [hs i h]
      dsimp only
      rw [restore_set h]
      split
      next => exact ih _ _
      next => exact ih _ _
    · rw [if_neg h, if_neg h]
      exact ih _ _

/-- C8: Neither `minimax` nor `getBestMove` leaves any net change to
the board: the stateful renderings return the input board unchanged, cell
for cell, on every path (pruned branches included), together with the
pure result. -/
theorem search_restores_board (b : Board) (hlen : b.length = 9) :
    (∀ (d : Nat) (m : Bool) (α β : Int),
      (minimaxS 10 b d m α β).2 = b ∧
        (minimaxS 10 b d m α β).1 = minimax b d m α β) ∧
    ∀ (difficulty : Difficulty) (r1 r2 : ℚ),
      (getBestMoveS b difficulty r1 r2).2 = b ∧
        (getBestMoveS b difficulty r1 r2).1 =
          getBestMove b difficulty r1 r2 := by
  have hce : countEmpty b ≤ 9 := by
    have := countEmpty_le_length b
    omega
  constructor
  · intro d m α β
    rw [minimaxS_eq 10 b (by omega) d m α β]
    exact ⟨rfl, rfl⟩
  · intro difficulty r1 r2
    rw [getBestMoveS, getBestMove]
    split
    next => exact ⟨rfl, rfl⟩
    next =>
      split
      next => exact ⟨rfl, rfl⟩
      next =>
        dsimp only
        rw [bestMoveLoopS_eq ?_ (List.range 9) (-1) negInf]
        · exact ⟨rfl, rfl⟩
        · intro i hi
          have hcs := countEmpty_set_succ hi Mark.O
          exact minimaxS_eq 9 _ (by omega) 0 false negInf posInf

theorem search_restores_board_witness :
    emptyBoard.length = 9 ∧
      ((minimaxS 10 emptyBoard 0 false negInf posInf).2 = emptyBoard ∧
        (minimaxS 10 emptyBoard 0 false negInf posInf).1 =
          minimax emptyBoard 0 false negInf posInf) ∧
      (getBestMoveS emptyBoard Difficulty.hard 0 0).2 = emptyBoard ∧
        (getBestMoveS emptyBoard Difficulty.hard 0 0).1 =
          getBestMove emptyBoard Difficulty.hard 0 0 :=
  ⟨by decide,
    (search_restores_board emptyBoard (by decide)).1 0 false negInf posInf,
    (search_restores_board emptyBoard (by decide)).2 Difficulty.hard 0 0⟩

theorem boardOf_length (x o : Nat) : (boardOf x o).length = 9 := by
  simp [boardOf]

theorem boardOf_get? {x o i : Nat} (h : i < 9) :
    (boardOf x o).get? i = some (if x.testBit i then some Mark.X
      else if o.testBit i then some Mark.O else none) := by
  rw [boardOf, List.get?_map, List.get?_range h]
  rfl

theorem testBit_ge9_false {x : Nat} (hx : x < 512) {j : Nat} (hj : 9 ≤ j) :
    x.testBit j = false := by
  apply Nat.testBit_eq_false_of_lt
  calc x < 512 := hx
    _ = 2 ^ 9 := by norm_num
    _ ≤ 2 ^ j := Nat.pow_le_pow_right (by norm_num) hj

theorem disjoint_testBit {x o : Nat} (hd : x &&& o = 0) (i : Nat) :
    ¬(x.testBit i = true ∧ o.testBit i = true) := by
  rintro ⟨hx, ho⟩
  have h := congrArg (fun t => t.testBit i) hd
  simp only [Nat.testBit_land, Nat.zero_testBit, hx, ho, Bool.and_self] at h
  exact Bool.noConfusion h

theorem lor_two_pow_lt {x : Nat} (hx : x < 512) {i : Nat} (hi : i < 9) :
    x ||| 2 ^ i < 512 := by
  have h1 : (2 : Nat) ^ i < 2 ^ 9 := Nat.pow_lt_pow_right (by norm_num) hi
  have h2 : (512 : Nat) = 2 ^ 9 := by norm_num
  rw [h2]
  exact Nat.or_lt_two_pow (by omega) h1

theorem disjoint_lorX {x o : Nat} (hd : x &&& o = 0) {i : Nat}
    (ho : o.testBit i = false) : (x ||| 2 ^ i) &&& o = 0 := by
  apply Nat.eq_of_testBit_eq
  intro j
  have hdj := congrArg (fun t => t.testBit j) hd
  simp only [Nat.testBit_land, Nat.zero_testBit] at hdj ⊢
  rw [Nat.testBit_lor, Nat.testBit_two_pow]
  rcases eq_or_ne i j with rfl | hne
  · simp [ho]
  · rw [decide_eq_false hne]
    simp only [Bool.or_false]
    exact hdj

theorem disjoint_lorO {x o : Nat} (hd : x &&& o = 0) {i : Nat}
    (hx : x.testBit i = false) : x &&& (o ||| 2 ^ i) = 0 := by
  apply Nat.eq_of_testBit_eq
  intro j
  have hdj := congrArg (fun t => t.testBit j) hd
  simp only [Nat.testBit_land, Nat.zero_testBit] at hdj ⊢
  rw [Nat.testBit_lor, Nat.testBit_two_pow]
  rcases eq_or_ne i j with rfl | hne
  · simp [hx]
  · rw [decide_eq_false hne]
    simp only [Bool.or_false]
    exact hdj

theorem boardOf_setX {x o : Nat} {i : Nat} (hi : i < 9)
    (hoi : o.testBit i = false) :
    (boardOf x o).set i (some Mark.X) = boardOf (x ||| 2 ^ i) o := by
  apply List.ext
  intro n
  rcases lt_or_ge n 9 with hn | hn
  · rcases eq_or_ne i n with rfl | hne
    · rw [List.get?_set_eq_of_lt _ (by rw [boardOf_length]; omega),
        boardOf_get? hn]
      rw [Nat.testBit_lor, Nat.testBit_two_pow]
      simp
    · rw [List.get?_set_ne _ _ hne, boardOf_get? hn, boardOf_get? hn]
      rw [Nat.testBit_lor, Nat.testBit_two_pow]
      simp [hne]
  · rw [List.get?_eq_none.mpr (by rw [List.length_set, boardOf_length]; omega),
      List.get?_eq_none.mpr (by rw [boardOf_length]; omega)]

theorem boardOf_setO {x o : Nat} {i : Nat} (hi : i < 9)
    (hxi : x.testBit i = false) :
    (boardOf x o).set i (some Mark.O) = boardOf x (o ||| 2 ^ i) := by
  apply List.ext
  intro n
  rcases lt_or_ge n 9 with hn | hn
  · rcases eq_or_ne i n with rfl | hne
    · rw [List.get?_set_eq_of_lt _ (by rw [boardOf_length]; omega),
        boardOf_get? hn]
      rw [Nat.testBit_lor, Nat.testBit_two_pow]
      simp [hxi]
    · rw [List.get?_set_ne _ _ hne, boardOf_get? hn, boardOf_get? hn]
      rw [Nat.testBit_lor, Nat.testBit_two_pow]
      simp [hne]
  · rw [List.get?_eq_none.mpr (by rw [List.length_set, boardOf_length]; omega),
      List.get?_eq_none.mpr (by rw [boardOf_length]; omega)]

theorem boardOf_empty_iff {x o : Nat} {i : Nat} (hi : i < 9) :
    ((boardOf x o).get? i = some none) ↔ (x ||| o).testBit i = false := by
  rw [boardOf_get? hi, Nat.testBit_lor]
  cases hx : x.testBit i <;> cases ho : o.testBit i <;> simp

theorem boardOf_cellX_iff {x o : Nat} {i : Nat} (hi : i < 9) :
    ((boardOf x o).get? i = some (some Mark.X)) ↔ x.testBit i = true := by
  rw [boardOf_get? hi]
  cases hx : x.testBit i <;> cases ho : o.testBit i <;> simp

theorem boardOf_cellO_iff {x o : Nat} {i : Nat} (hi : i < 9) :
    ((boardOf x o).get? i = some (some Mark.O)) ↔
      (x.testBit i = false ∧ o.testBit i = true) := by
  rw [boardOf_get? hi]
  cases hx : x.testBit i <;> cases ho : o.testBit i <;> simp

theorem lineMasks_eq : lineMasks = WINNING_COMBINATIONS.map maskOf := by
  decide

theorem land_mask_iff (x a b2 c : Nat) :
    (x &&& (2 ^ a ||| 2 ^ b2 ||| 2 ^ c) = (2 ^ a ||| 2 ^ b2 ||| 2 ^ c)) ↔
      (x.testBit a = true ∧ x.testBit b2 = true ∧ x.testBit c = true) := by
  constructor
  · intro h
    refine ⟨?_, ?_, ?_⟩
    · have ha := congrArg (fun t => t.testBit a) h
      simp only [Nat.testBit_land, Nat.testBit_lor, Nat.testBit_two_pow] at ha
      simpa using ha
    · have hb := congrArg (fun t => t.testBit b2) h
      simp only [Nat.testBit_land, Nat.testBit_lor, Nat.testBit_two_pow] at hb
      simpa using hb
    · have hc := congrArg (fun t => t.testBit c) h
      simp only [Nat.testBit_land, Nat.testBit_lor, Nat.testBit_two_pow] at hc
      simpa using hc
  · rintro ⟨ha, hb, hc⟩
    apply Nat.eq_of_testBit_eq
    intro j
    simp only [Nat.testBit_land, Nat.testBit_lor, Nat.testBit_two_pow]
    rcases eq_or_ne a j with rfl | hna
    · simp [ha]
    rcases eq_or_ne b2 j with rfl | hnb
    · simp [hb]
    rcases eq_or_ne c j with rfl | hnc
    · simp [hc]
    simp [decide_eq_false hna, decide_eq_false hnb, decide_eq_false hnc]

theorem testBit_false_of_other {x o : Nat} (hd : x &&& o = 0) {i : Nat}
    (ho : o.testBit i = true) : x.testBit i = false := by
  cases hxx : x.testBit i with
  | false => rfl
  | true => exact absurd ⟨hxx, ho⟩ (disjoint_testBit hd i)

theorem firstLineWinB_bridge {x o : Nat} (hd : x &&& o = 0) :
    ∀ (L : List (Nat × Nat × Nat)),
    (∀ t ∈ L, t.1 < 9 ∧ t.2.1 < 9 ∧ t.2.2 < 9) →
    firstLineWinB x o (L.map maskOf) = checkWinnerAux (boardOf x o) L := by
  intro L
  induction L with
  | nil => intro _; rw [List.map_nil, firstLineWinB, checkWinnerAux]
  | cons t rest ih =>
    intro hb
    obtain ⟨a, b2, c⟩ := t
    have h9 := hb (a, b2, c) (by simp)
    have ha9 : a < 9 := h9.1
    have hb9 : b2 < 9 := h9.2.1
    have hc9 : c < 9 := h9.2.2
    have hrest := ih (fun t ht => hb t (by simp [ht]))
    rw [List.map_cons, firstLineWinB, checkWinnerAux, maskOf]
    cases hxa : x.testBit a with
    | true =>
      have hoa : o.testBit a = false := by
        cases hoo : o.testBit a with
        | false => rfl
        | true => exact absurd ⟨hxa, hoo⟩ (disjoint_testBit hd a)
      have hcell : (boardOf x o).get? a = some (some Mark.X) :=
        (boardOf_cellX_iff ha9).mpr hxa
      rw [hcell]
      dsimp only
      by_cases hbc : x.testBit b2 = true ∧ x.testBit c = true
      · rw [if_pos ((land_mask_iff x a b2 c).mpr ⟨hxa, hbc.1, hbc.2⟩),
          if_pos ⟨(boardOf_cellX_iff hb9).mpr hbc.1,
            (boardOf_cellX_iff hc9).mpr hbc.2⟩]
      · rw [if_neg (fun hk => hbc ⟨((land_mask_iff x a b2 c).mp hk).2.1,
            ((land_mask_iff x a b2 c).mp hk).2.2⟩),
          if_neg (fun hk => by
            have := ((land_mask_iff o a b2 c).mp hk).1
            rw [hoa] at this
            exact Bool.noConfusion this),
          if_neg (fun hk => hbc ⟨(boardOf_cellX_iff hb9).mp hk.1,
            (boardOf_cellX_iff hc9).mp hk.2⟩)]
        exact hrest
    | false =>
      cases hoa : o.testBit a with
      | true =>
        have hcell : (boardOf x o).get? a = some (some Mark.O) :=
          (boardOf_cellO_iff ha9).mpr ⟨hxa, hoa⟩
        rw [hcell]
        dsimp only
        rw [if_neg (fun hk => by
          have := ((land_mask_iff x a b2 c).mp hk).1
          rw [hxa] at this
          exact Bool.noConfusion this)]
        by_cases hbc : o.testBit b2 = true ∧ o.testBit c = true
        · rw [if_pos ((land_mask_iff o a b2 c).mpr ⟨hoa, hbc.1, hbc.2⟩),
            if_pos ⟨(boardOf_cellO_iff hb9).mpr
                ⟨testBit_false_of_other hd hbc.1, hbc.1⟩,
              (boardOf_cellO_iff hc9).mpr
                ⟨testBit_false_of_other hd hbc.2, hbc.2⟩⟩]
        · rw [if_neg (fun hk => hbc ⟨((land_mask_iff o a b2 c).mp hk).2.1,
              ((land_mask_iff o a b2 c).mp hk).2.2⟩),
            if_neg (fun hk => hbc ⟨((boardOf_cellO_iff hb9).mp hk.1).2,
              ((boardOf_cellO_iff hc9).mp hk.2).2⟩)]
          exact hrest
      | false =>
        have hcell : (boardOf x o).get? a = some none := by
          rw [boardOf_get? ha9, hxa, hoa]
          rfl
        rw [hcell]
        dsimp only
        rw [if_neg (fun hk => by
            have := ((land_mask_iff x a b2 c).mp hk).1
            rw [hxa] at this
            exact Bool.noConfusion this),
          if_neg (fun hk => by
            have := ((land_mask_iff o a b2 c).mp hk).1
            rw [hoa] at this
            exact Bool.noConfusion this)]
        exact hrest

/-- Bitboard rendering of the full winner scan. -/
theorem checkWinner_bridge {x o : Nat} (hd : x &&& o = 0) :
    firstLineWinB x o lineMasks = checkWinner (boardOf x o) := by
  rw [lineMasks_eq, checkWinner]
  exact firstLineWinB_bridge hd WINNING_COMBINATIONS (by decide)

theorem testBit_511 {j : Nat} (hj : j < 9) : Nat.testBit 511 j = true := by
  interval_cases j <;> decide

/-- Bitboard rendering of the draw test, in the absence of a winner. -/
theorem checkDraw_bridge {x o : Nat} (hx : x < 512) (ho : o < 512)
    (hw : checkWinner (boardOf x o) = none) :
    (checkDraw (boardOf x o) = true) ↔ x ||| o = 511 := by
  rw [checkDraw, hw]
  simp only [Option.isNone_none, Bool.and_true, List.all_eq_true]
  constructor
  · intro hall
    apply Nat.eq_of_testBit_eq
    intro j
    rcases lt_or_ge j 9 with hj | hj
    · rw [Nat.testBit_lor, testBit_511 hj]
      have hmem : (if x.testBit j then some Mark.X
          else if o.testBit j then some Mark.O else none) ∈ boardOf x o :=
        List.get?_mem (boardOf_get? hj)
      have hs := hall _ hmem
      cases hxj : x.testBit j with
      | true => rfl
      | false =>
        cases hoj : o.testBit j with
        | true => rfl
        | false =>
          rw [hxj, hoj] at hs
          simp at hs
    · rw [Nat.testBit_lor, testBit_ge9_false hx hj, testBit_ge9_false ho hj]
      have h511 : Nat.testBit 511 j = false := by
        apply Nat.testBit_eq_false_of_lt
        calc (511 : Nat) < 2 ^ 9 := by norm_num
          _ ≤ 2 ^ j := Nat.pow_le_pow_right (by norm_num) hj
      rw [h511]
      rfl
  · intro h511 cell hmem
    obtain ⟨n, hget⟩ := List.mem_iff_get.mp hmem
    have hn9 : (n : Nat) < 9 := by
      have hlt := n.isLt
      have hlen := boardOf_length x o
      omega
    have hg : (boardOf x o).get? n = some cell := by
      rw [List.get?_eq_get n.isLt, hget]
    rw [boardOf_get? hn9] at hg
    have hbit : (x ||| o).testBit (n : Nat) = true := by
      have h5 := testBit_511 hn9
      rw [← h511] at h5
      exact h5
    rw [Nat.testBit_lor] at hbit
    cases hxj : x.testBit n with
    | true =>
      rw [hxj] at hg
      cases hg
      rfl
    | false =>
      rw [hxj] at hbit hg
      simp only [Bool.false_or] at hbit
      rw [hbit] at hg
      cases hg
      rfl

theorem forAB_true {check : Nat → Nat → Bool} {x o : Nat} :
    ∀ (l : List Nat), forAB check x o l = true →
    ∀ i ∈ l, (x ||| o).testBit i = false → check (x ||| 2 ^ i) o = true := by
  intro l
  induction l with
  | nil => intro _ i hi; cases hi
  | cons j rest ih =>
    intro h i hi hfree
    rw [forAB, Bool.and_eq_true] at h
    rcases List.mem_cons.mp hi with rfl | hmem
    · have h1 := h.1
      rw [if_neg (by rw [hfree]; exact Bool.false_ne_true)] at h1
      exact h1
    · exact ih h.2 i hmem hfree

theorem anyBB_true {check : Nat → Nat → Bool} {x o : Nat} :
    ∀ (l : List Nat), anyBB check x o l = true →
    ∃ i ∈ l, (x ||| o).testBit i = false ∧ check x (o ||| 2 ^ i) = true := by
  intro l
  induction l with
  | nil => intro h; rw [anyBB] at h; cases h
  | cons j rest ih =>
    intro h
    rw [anyBB, Bool.or_eq_true] at h
    rcases h with h1 | h2
    · cases hocc : (x ||| o).testBit j with
      | true =>
        rw [if_pos hocc] at h1
        cases h1
      | false =>
        rw [if_neg (by rw [hocc]; exact Bool.false_ne_true)] at h1
        exact ⟨j, by simp, hocc, h1⟩
    · obtain ⟨i, hi, hf, hc⟩ := ih h2
      exact ⟨i, by simp [hi], hf, hc⟩

theorem ordered_mem_of_lt : ∀ j < 9, j ∈ orderedIdx := by decide

theorem lt_of_ordered_mem : ∀ j ∈ orderedIdx, j < 9 := by decide

/-- Soundness of the certificate search: a `true` verdict means the
`'O'`-perspective exhaustive minimax value of the denoted board is
non-negative (at every depth offset within the game's budget). -/
theorem safeN_sound : ∀ (fuel : Nat) (x o : Nat), x < 512 → o < 512 →
    x &&& o = 0 → countEmpty (boardOf x o) < fuel →
    ∀ (turn : Bool) (d : Nat), d + countEmpty (boardOf x o) ≤ 9 →
    safeN fuel turn x o = true →
    0 ≤ npMinimax (boardOf x o) d (!turn) := by
  intro fuel
  induction fuel with
  | zero =>
    intro x o _ _ _ hce
    exact absurd hce (by omega)
  | succ fuel ih =>
    intro x o hx ho hd hce turn d hdep hsafe
    rw [safeN, checkWinner_bridge hd] at hsafe
    rw [npMinimax]
    cases hw : checkWinner (boardOf x o) with
    | some mm =>
      rw [hw] at hsafe
      cases mm
      · exact Bool.noConfusion hsafe
      · show (0:Int) ≤ 10 - (d:Int)
        omega
    | none =>
      rw [hw] at hsafe
      by_cases hdr : checkDraw (boardOf x o)
      · rw [if_pos hdr]
      · rw [if_neg hdr]
        have hne511 : ¬ (x ||| o = 511) := by
          intro hk
          exact hdr ((checkDraw_bridge hx ho hw).mpr hk)
        rw [if_neg hne511] at hsafe
        cases turn with
        | true =>
          rw [if_pos rfl] at hsafe
          show (0:Int) ≤ npMinLoop (boardOf x o) d (List.range 9) posInf
          refine npMinLoop_ge _ _ (by rw [posInf]; omega) ?_
          intro j hj hje
          have hj9 : j < 9 := List.mem_range.mp hj
          have hfree : (x ||| o).testBit j = false :=
            (boardOf_empty_iff hj9).mp hje
          have hxj : x.testBit j = false := by
            have := hfree
            rw [Nat.testBit_lor] at this
            cases hxx : x.testBit j with
            | false => rfl
            | true => rw [hxx] at this; exact Bool.noConfusion this
          have hoj : o.testBit j = false := by
            have := hfree
            rw [Nat.testBit_lor] at this
            cases hoo : o.testBit j with
            | false => rfl
            | true => rw [hoo, Bool.or_true] at this; exact Bool.noConfusion this
          have hset := boardOf_setX (x := x) hj9 hoj
          have hcs := countEmpty_set_succ hje Mark.X
          rw [hset] at hcs
          have hch := forAB_true orderedIdx hsafe j
            (ordered_mem_of_lt j hj9) hfree
          have := ih (x ||| 2 ^ j) o (lor_two_pow_lt hx hj9) ho
            (disjoint_lorX hd hoj) (by omega) false (d + 1) (by omega) hch
          rw [hset]
          simpa using this
        | false =>
          rw [if_neg Bool.false_ne_true] at hsafe
          show (0:Int) ≤ npMaxLoop (boardOf x o) d (List.range 9) negInf
          obtain ⟨i, hi, hfree, hch⟩ := anyBB_true orderedIdx hsafe
          have hi9 : i < 9 := lt_of_ordered_mem i hi
          have hxj : x.testBit i = false := by
            have h2 := hfree
            rw [Nat.testBit_lor] at h2
            cases hxx : x.testBit i with
            | false => rfl
            | true => rw [hxx] at h2; exact Bool.noConfusion h2
          have hje : (boardOf x o).get? i = some none :=
            (boardOf_empty_iff hi9).mpr hfree
          have hset := boardOf_setO (o := o) hi9 hxj
          have hcs := countEmpty_set_succ hje Mark.O
          rw [hset] at hcs
          have := ih x (o ||| 2 ^ i) hx (lor_two_pow_lt ho hi9)
            (disjoint_lorO hd hxj) (by omega) true (d + 1) (by omega) hch
          refine le_trans ?_ (npMaxLoop_ge_elem (List.mem_range.mpr hi9) hje negInf)
          rw [hset]
          simpa using this

theorem inProgress_facts {b : Board} (h : evaluate b = Outcome.inProgress) :
    checkWinner b = none ∧ checkDraw b = false := by
  rw [evaluate] at h
  cases hw : checkWinner b with
  | some mm => rw [hw] at h; exact Outcome.noConfusion h
  | none =>
    rw [hw] at h
    refine ⟨rfl, ?_⟩
    cases hd : checkDraw b with
    | false => rfl
    | true => rw [if_pos hd] at h; exact Outcome.noConfusion h

theorem npMinimax_inProgress_false {b : Board} (hw : checkWinner b = none)
    (hd : checkDraw b = false) (d : Nat) :
    npMinimax b d false = npMinLoop b d (List.range 9) posInf := by
  rw [npMinimax, hw]
  rw [if_neg (by rw [hd]; exact Bool.false_ne_true)]
  rw [if_neg Bool.false_ne_true]

theorem npMinimax_inProgress_true {b : Board} (hw : checkWinner b = none)
    (hd : checkDraw b = false) (d : Nat) :
    npMinimax b d true = npMaxLoop b d (List.range 9) negInf := by
  rw [npMinimax, hw]
  rw [if_neg (by rw [hd]; exact Bool.false_ne_true)]
  rw [if_pos rfl]

theorem emptyBoard_eq : emptyBoard = boardOf 0 0 := by decide

set_option maxHeartbeats 12000000 in
/-- Verified run of the certificate search from the empty position. -/
theorem safeN_base : safeN 10 true 0 0 = true := by decide

theorem empty_value_nonneg : 0 ≤ npMinimax emptyBoard 0 false := by
  have h := safeN_sound 10 0 0 (by norm_num) (by norm_num) (by norm_num)
    (by decide) true 0 (by decide) safeN_base
  rw [emptyBoard_eq]
  exact h

/-- Invariant of the protocol: every reachable board is 9 cells long and
the exhaustive minimax value for `'O'` (with the side to move as stated)
is never negative — `'X'` never obtains a winning position. -/
theorem reachAB_invariant : ∀ (b : Board) (t : Bool), ReachAB b t →
    b.length = 9 ∧ 0 ≤ npMinimax b 0 (!t) := by
  intro b t h
  induction h with
  | base => exact ⟨by decide, empty_value_nonneg⟩
  | stepA b i hre hprog hemp ihh =>
    obtain ⟨hlen, hval⟩ := ihh
    refine ⟨by simp [hlen], ?_⟩
    obtain ⟨hw, hdr⟩ := inProgress_facts hprog
    rw [Bool.not_true] at hval
    rw [npMinimax_inProgress_false hw hdr 0] at hval
    rw [npMinLoop_nonneg_iff] at hval
    have hi9 : i < 9 := by
      obtain ⟨hh, _⟩ := List.get?_eq_some.mp hemp
      omega
    have hchild := hval.2 i (List.mem_range.mpr hi9) hemp
    have hcs := countEmpty_set_succ hemp Mark.X
    have hce9 : countEmpty b ≤ 9 := by
      have := countEmpty_le_length b
      omega
    have htr := npMinimax_nonneg_step (countEmpty (b.set i (some Mark.X)))
      (b.set i (some Mark.X)) rfl (by simp [hlen]) 0 true (by omega)
    rw [Bool.not_false]
    exact htr.mpr hchild
  | stepB b mv hre hprog hmv ihh =>
    obtain ⟨hlen, hval⟩ := ihh
    refine ⟨by simp [hlen], ?_⟩
    obtain ⟨hw, hdr⟩ := inProgress_facts hprog
    obtain ⟨j0, hj0lt, hj0⟩ := exists_empty_of_not_draw hw hdr
    obtain ⟨m, hm9, hme, heq, hmax⟩ := hardMove_spec hlen hj0
    have hmveq : mv = Int.ofNat m := by
      rw [getBestMove_hard, heq] at hmv
      exact (Option.some_inj.mp hmv).symm
    have htonat : mv.toNat = m := by rw [hmveq]; rfl
    rw [htonat, Bool.not_true]
    rw [Bool.not_false] at hval
    rw [npMinimax_inProgress_true hw hdr 0] at hval
    rw [npMaxLoop_nonneg_iff] at hval
    rcases hval with hneg | ⟨j, hjmem, hje, hjval⟩
    · exact absurd hneg (by rw [negInf]; omega)
    · have hcsj := countEmpty_set_succ hje Mark.O
      have hce9 : countEmpty b ≤ 9 := by
        have := countEmpty_le_length b
        omega
      have htrj := npMinimax_nonneg_step (countEmpty (b.set j (some Mark.O)))
        (b.set j (some Mark.O)) rfl (by simp [hlen]) 0 false (by omega)
      have hsj : 0 ≤ npMinimax (b.set j (some Mark.O)) 0 false :=
        htrj.mpr hjval
      have hsc := hmax j hje
      rw [minimax_eq_npMinimax (by simp [hlen]),
        minimax_eq_npMinimax (by simp [hlen])] at hsc
      omega

/-- C1: Hard difficulty is lossless: in the game that starts from the
all-Empty board with MarkA (`'X'`) moving first, if MarkB's move is always
the one chosen by `getBestMove` with difficulty Hard, then no reachable
board — terminal or not — has outcome `Win MarkA`; every reachable
terminal board is a MarkB win or a draw. -/
theorem hard_lossless : ∀ (b : Board) (t : Bool), ReachAB b t →
    evaluate b ≠ Outcome.win Mark.X := by
  intro b t h hwin
  obtain ⟨hlen, hval⟩ := reachAB_invariant b t h
  have hcw : checkWinner b = some Mark.X := by
    rw [evaluate] at hwin
    cases hw : checkWinner b with
    | some mm =>
      rw [hw] at hwin
      cases mm
      · rfl
      · exact Outcome.noConfusion hwin (fun hx => Mark.noConfusion hx)
    | none =>
      rw [hw] at hwin
      by_cases hd : checkDraw b
      · rw [if_pos hd] at hwin
        exact Outcome.noConfusion hwin
      · rw [if_neg hd] at hwin
        exact Outcome.noConfusion hwin
  have hv : npMinimax b 0 (!t) = ((0:Nat) : Int) - 10 := by
    rw [npMinimax, hcw]
  rw [hv] at hval
  omega

theorem hard_lossless_witness : evaluate emptyBoard ≠ Outcome.win Mark.X :=
  hard_lossless emptyBoard true ReachAB.base
